import Mathlib

/-!
Verification of the generic cluster-tree (junction-tree) elimination engine
of gtsam (`gtsam/inference/ClusterTree-inst.h`), as a shallow embedding.

Machine-level conventions of the embedding:
* `boost::shared_ptr<FactorType>` is `Option GFactor` where nullness matters
  (child-factor slots, the remaining factor returned by the elimination
  function), and `GFactor` where the pointer is known non-null (a cluster's
  attached factors).
* The Bayes-tree cliques live in an arena `List BTNode`; parent/child links
  are indices into that arena, so `boost::make_shared<Node>()` is an append
  at the end of the arena.
* Exceptions (`RuntimeErrorThreadsafe`) and the undefined dereference of a
  null `shared_ptr` are modelled by `Except`, the error carrying the state
  at the moment it is raised.
* Each invocation of the user-supplied elimination function is recorded in a
  ghost log (`ElimState.calls`); the log does not influence the computation.
-/

/-- Variable identifiers (`gtsam::Key`). -/
abbrev Key := Nat

/-- Modelled from the spec: the conditional produced by the elimination
function (`ConditionalType`, from `BayesTree.h`/the factor-graph layer, not
under `src/`).  Only its frontal-variable list is observable here
(`conditional()->frontals()` is used to fill the key-to-clique index). -/
structure Conditional where
  frontals : List Key
  deriving Repr, DecidableEq

/-- A factor payload (`sharedFactor`).  Following the spec's design note, a
factor is a tagged variant: an ordinary factor (opaque payload identity plus
its keys, so that `empty()` is observable), or a `BayesTreeOrphanWrapper`
wrapping a previously built clique, identified by its arena index. -/
inductive GFactor where
  | ordinary (id : Nat) (keys : List Key)
  | orphan (clique : Nat)
  deriving Repr, DecidableEq

/-- Modelled from the spec: `FactorType::empty()` (the factor-graph layer is
not under `src/`): a factor is empty when it touches no keys.  It is only
ever called on factors returned by the elimination function; an orphan
wrapper reports the wrapped conditional's keys, hence non-empty here. -/
def GFactor.empty : GFactor → Bool
  | .ordinary _ keys => keys.isEmpty
  | .orphan _ => false

/-- The clique index wrapped by an orphan factor, if any. -/
def GFactor.orphanIdx : GFactor → Option Nat
  | .ordinary _ _ => none
  | .orphan c => some c

/-- Whether a factor is a `BayesTreeOrphanWrapper`
(the `dynamic_cast` test of the post-order visitors). -/
def GFactor.isOrphan : GFactor → Bool
  | .ordinary _ _ => false
  | .orphan _ => true

/-- Modelled from the spec: a Bayes-tree clique
(`CLUSTERTREE::BayesTreeType::Node`, declared in `BayesTree.h`, not under
`src/`): the eliminated conditional (null before `setEliminationResult`), a
parent back-reference, owned children, and a cached problem size.
Parent/child references are arena indices. -/
structure BTNode where
  conditional : Option Conditional := none
  parent_ : Option Nat := none
  children : List Nat := []
  problemSize_ : Int := 0
  deriving Repr, DecidableEq, Inhabited

/-- The clique arena: all clique nodes ever allocated, addressed by index. -/
abbrev Heap := List BTNode

/-- A freshly allocated clique (`boost::make_shared<Node>()`). -/
def newBTNode : BTNode :=
  { conditional := none, parent_ := none, children := [], problemSize_ := 0 }

/-- Read an arena slot (out-of-range reads yield the default node; in the
modelled flows every read index is in range). -/
def getNode (h : Heap) (i : Nat) : BTNode := h.getD i default

/-- Update one arena slot in place; out of range is a no-op. -/
def modifyNode : Heap → Nat → (BTNode → BTNode) → Heap
  | [], _, _ => []
  | n :: ns, 0, f => f n :: ns
  | n :: ns, i + 1, f => n :: modifyNode ns i f

/-- Embeds `child->parent_ = parentClique` : set the parent back-pointer. -/
def setParentPtr (h : Heap) (child parentIdx : Nat) : Heap :=
  modifyNode h child (fun n => { n with parent_ := some parentIdx })

/-- Embeds `parentClique->children.push_back(child)` : append a child link. -/
def pushChild (h : Heap) (parentIdx child : Nat) : Heap :=
  modifyNode h parentIdx (fun n => { n with children := n.children ++ [child] })

/-- A variable cluster (`ClusterTree::Cluster`): ordered keys (the local
elimination order), attached factors, cached problem size, child clusters. -/
inductive Cluster where
  | mk (keys : List Key) (factors : List GFactor) (problemSize : Int)
       (children : List Cluster)

def Cluster.keys : Cluster → List Key
  | .mk k _ _ _ => k

def Cluster.factors : Cluster → List GFactor
  | .mk _ f _ _ => f

def Cluster.problemSize : Cluster → Int
  | .mk _ _ p _ => p

def Cluster.children : Cluster → List Cluster
  | .mk _ _ _ c => c

/-- A cluster tree/forest (`ClusterTree`): ordered roots plus the flat
remaining-factors side list. -/
structure ClusterTree where
  roots : List Cluster
  remainingFactors : List GFactor

/-- One recorded invocation of the elimination function: the clique the
result is stored into, the gathered factors, and the elimination order. -/
structure ElimCall where
  cliqueIdx : Nat
  factors : List GFactor
  order : List Key
  deriving Repr, DecidableEq

/-- The (factors, order) arguments of a recorded invocation. -/
def ElimCall.args (e : ElimCall) : List GFactor × List Key :=
  (e.factors, e.order)

/-- The mutable state threaded through a traversal: the clique arena, the
key-to-clique index (`BayesTreeType::Nodes`), and the ghost invocation log. -/
structure ElimState where
  heap : Heap
  nodesIndex : List (Key × Nat)
  calls : List ElimCall
  deriving Repr, DecidableEq

/-- The user-supplied elimination function (`CLUSTERTREE::Eliminate`):
(factor set, elimination order) ↦ (conditional, remaining factor).  The
remaining factor is a nullable pointer in the source, hence `Option`. -/
abbrev EliminateF := List GFactor → List Key → Conditional × Option GFactor

/-- The two failure modes of a traversal: the
`RuntimeErrorThreadsafe` thrown when in-place elimination meets an orphan
wrapper, and the undefined dereference of a null remaining-factor pointer
at `eliminationResult.second->empty()`. -/
inductive ElimErr where
  | orphanInPlace
  | nullRemainingFactor
  deriving Repr, DecidableEq

/-- Embeds `EliminationData` (allocating variant): parent-null flag, this node's
slot index in the parent's child-factor list, the accumulated child-factor
slots, and the (freshly allocated) clique's arena index. -/
structure EData where
  hasParentData : Bool
  myIndexInParent : Nat
  childFactors : List (Option GFactor)
  bayesTreeNode : Nat
  deriving Repr, DecidableEq

/-- Embeds `EliminationData::EliminationData(0, nChildren)`: the dummy roots
container.  Allocates the synthetic dummy clique, records index 0, no
linking (there is no parent). -/
def mkEliminationDataRoot (h : Heap) : EData × Heap :=
  ({ hasParentData := false, myIndexInParent := 0, childFactors := [],
     bayesTreeNode := h.length },
   h ++ [newBTNode])

/-- Embeds `EliminationData::EliminationData(&parentData, nChildren)` for a real
node: allocate a fresh clique; push one null slot onto the parent's
child-factor list and record this node's index into it; then, unless the
parent is the dummy root (`parentData->parentData == 0`), set the new
clique's parent pointer; in every case append the new clique to the parent
clique's children.  Returns (new data, updated parent data, updated arena). -/
def mkEliminationData (parent : EData) (h : Heap) : EData × EData × Heap :=
  let idx := h.length
  let myIndex := parent.childFactors.length
  let parent' := { parent with childFactors := parent.childFactors ++ [none] }
  let h1 := h ++ [newBTNode]
  let h2 := if parent.hasParentData then setParentPtr h1 idx parent.bayesTreeNode else h1
  let h3 := pushChild h2 parent.bayesTreeNode idx
  ({ hasParentData := true, myIndexInParent := myIndex, childFactors := [],
     bayesTreeNode := idx }, parent', h3)

/-- Embeds `EliminationDataInPlace`: same slot bookkeeping as `EData`, but the
clique index refers to an already-existing clique of a prior tree. -/
structure EDataIP where
  hasParentData : Bool
  myIndexInParent : Nat
  childFactors : List (Option GFactor)
  bayesTreeNode : Nat
  deriving Repr, DecidableEq

/-- Embeds `EliminationDataInPlace::EliminationDataInPlace(&parentData, nChildren)`:
identical slot bookkeeping, but instead of allocating, locates the existing
clique `parentData->bayesTreeNode->children[myIndexInParent]`; never creates
or links nodes.  An out-of-range lookup is a contract violation in the
source (unchecked precondition); the model reads index 0 there. -/
def mkEliminationDataInPlace (parent : EDataIP) (h : Heap) : EDataIP × EDataIP :=
  let myIndex := parent.childFactors.length
  let parent' := { parent with childFactors := parent.childFactors ++ [none] }
  let myIdx := (getNode h parent.bayesTreeNode).children.getD myIndex 0
  ({ hasParentData := true, myIndexInParent := myIndex, childFactors := [],
     bayesTreeNode := myIdx }, parent')

/-- Modelled from the spec: gathering
`gatheredFactors += node->factors; gatheredFactors += myData.childFactors;`
(the factor-graph layer is not under `src/`): the cluster's own factors are
combined with every non-null factor contributed by children (null slots
contribute nothing to the factor set seen by the elimination function). -/
def gatherFactors (own : List GFactor) (childFactors : List (Option GFactor)) :
    List GFactor :=
  own ++ childFactors.filterMap id

/-- Embeds `eliminationPostOrderVisitorHelper`: gather the cluster's own factors
with the non-null child contributions, invoke the elimination function with
the cluster's keys as the order (`Ordering(node->keys)` preserves the stored
key order), store the conditional into the clique
(`setEliminationResult`), then dereference the remaining-factor pointer
without a null check; if the remaining factor is non-empty, store it into
the parent's reserved slot at this node's index.  Returns the updated
parent child-factor slots and state. -/
def eliminationPostOrderVisitorHelper (elim : EliminateF) (node : Cluster)
    (myNodeIdx myIndexInParent : Nat) (childFactors : List (Option GFactor))
    (parentChildFactors : List (Option GFactor)) (st : ElimState) :
    Except (ElimErr × ElimState) (List (Option GFactor) × ElimState) :=
  let gathered := gatherFactors node.factors childFactors
  let res := elim gathered node.keys
  let st1 : ElimState :=
    { st with
      heap := modifyNode st.heap myNodeIdx (fun n => { n with conditional := some res.1 })
      calls := st.calls ++ [⟨myNodeIdx, gathered, node.keys⟩] }
  match res.2 with
  | none => .error (.nullRemainingFactor, st1)
  | some rf =>
    if rf.empty then .ok (parentChildFactors, st1)
    else .ok (parentChildFactors.set myIndexInParent (some rf), st1)

/-- The orphan re-attachment loop of `EliminationPostOrderVisitor`: scan a
factor list for orphan wrappers; for each, append the wrapped clique to the
new clique's children and set the orphan clique's parent pointer. -/
def attachOrphans (h : Heap) (myNodeIdx : Nat) : List GFactor → Heap
  | [] => h
  | .ordinary _ _ :: fs => attachOrphans h myNodeIdx fs
  | .orphan c :: fs =>
      attachOrphans (setParentPtr (pushChild h myNodeIdx c) c myNodeIdx) myNodeIdx fs

/-- The frontal variables of a stored conditional
(`bayesTreeNode->conditional()->frontals()`; the conditional is always set
by the helper before this read). -/
def storedFrontals (h : Heap) (i : Nat) : List Key :=
  match (getNode h i).conditional with
  | some c => c.frontals
  | none => []

/-- Embeds `EliminationPostOrderVisitor::operator()` (fresh build): run the shared
helper, re-attach every orphan wrapper found among the cluster's own
factors, then register every frontal variable of the new clique's
conditional into the key-to-clique index. -/
def eliminationPostOrderVisitor (elim : EliminateF) (node : Cluster)
    (myData : EData) (parentChildFactors : List (Option GFactor))
    (st : ElimState) :
    Except (ElimErr × ElimState) (List (Option GFactor) × ElimState) := do
  let (pcf, st1) ← eliminationPostOrderVisitorHelper elim node
      myData.bayesTreeNode myData.myIndexInParent myData.childFactors
      parentChildFactors st
  let h2 := attachOrphans st1.heap myData.bayesTreeNode node.factors
  let idx2 := st1.nodesIndex ++
      (storedFrontals h2 myData.bayesTreeNode).map (fun j => (j, myData.bayesTreeNode))
  .ok (pcf, { st1 with heap := h2, nodesIndex := idx2 })

/-- Embeds `EliminationPostOrderVisitorInPlace::operator()`: first scan the
cluster's own factors for orphan wrappers and throw
`RuntimeErrorThreadsafe` if one is found; otherwise run the shared helper.
No key-index bookkeeping. -/
def eliminationPostOrderVisitorInPlace (elim : EliminateF) (node : Cluster)
    (myData : EDataIP) (parentChildFactors : List (Option GFactor))
    (st : ElimState) :
    Except (ElimErr × ElimState) (List (Option GFactor) × ElimState) :=
  if node.factors.any GFactor.isOrphan then
    .error (.orphanInPlace, st)
  else
    eliminationPostOrderVisitorHelper elim node
      myData.bayesTreeNode myData.myIndexInParent myData.childFactors
      parentChildFactors st

mutual
/-- Modelled from the spec:
`treeTraversal::DepthFirstForestParallel` (in `treeTraversal-inst.h`, not
under `src/`) specialised to the fresh-build visitors: depth-first walk,
pre-order creating the elimination context from the parent's context
(`eliminationPreOrderVisitor`, which also copies the cluster's problem size
into the new clique), children next, the post-order visitor ascending.  The
spec's join-barrier ordering guarantee (parent post-order strictly after all
children's post-order steps) makes the sequential order below the canonical
semantics; sibling interleavings are studied separately by `postEvents`.
Returns the parent's updated context together with the final state. -/
def elimTraverse (elim : EliminateF) (c : Cluster) (parent : EData)
    (st : ElimState) : Except (ElimErr × ElimState) (EData × ElimState) := do
  let (myData0, parent', h1) := mkEliminationData parent st.heap
  let h2 := modifyNode h1 myData0.bayesTreeNode
      (fun n => { n with problemSize_ := c.problemSize })
  let (myData1, st2) ← elimTraverseList elim c.children myData0 { st with heap := h2 }
  let (pcf, st3) ← eliminationPostOrderVisitor elim c myData1 parent'.childFactors st2
  .ok ({ parent' with childFactors := pcf }, st3)
termination_by sizeOf c
decreasing_by cases c with | mk k f p ch => simp [Cluster.children]; try omega

/-- Walk a sibling list left to right, threading the parent context. -/
def elimTraverseList (elim : EliminateF) (cs : List Cluster) (d : EData)
    (st : ElimState) : Except (ElimErr × ElimState) (EData × ElimState) :=
  match cs with
  | [] => .ok (d, st)
  | c :: rest => do
      let (d1, st1) ← elimTraverse elim c d st
      elimTraverseList elim rest d1 st1
termination_by sizeOf cs
decreasing_by all_goals (simp; try omega)
end

mutual
/-- Modelled from the spec: the traversal driver specialised to the
in-place visitors (`DepthFirstForestParallel` with
`EliminationDataInPlace`); identical walk, but the pre-order step locates
the existing clique instead of allocating. -/
def elimTraverseIP (elim : EliminateF) (c : Cluster) (parent : EDataIP)
    (st : ElimState) : Except (ElimErr × ElimState) (EDataIP × ElimState) := do
  let (myData0, parent') := mkEliminationDataInPlace parent st.heap
  let h1 := modifyNode st.heap myData0.bayesTreeNode
      (fun n => { n with problemSize_ := c.problemSize })
  let (myData1, st2) ← elimTraverseIPList elim c.children myData0 { st with heap := h1 }
  let (pcf, st3) ← eliminationPostOrderVisitorInPlace elim c myData1 parent'.childFactors st2
  .ok ({ parent' with childFactors := pcf }, st3)
termination_by sizeOf c
decreasing_by cases c with | mk k f p ch => simp [Cluster.children]; try omega

/-- Walk a sibling list left to right, threading the parent context. -/
def elimTraverseIPList (elim : EliminateF) (cs : List Cluster) (d : EDataIP)
    (st : ElimState) : Except (ElimErr × ElimState) (EDataIP × ElimState) :=
  match cs with
  | [] => .ok (d, st)
  | c :: rest => do
      let (d1, st1) ← elimTraverseIP elim c d st
      elimTraverseIPList elim rest d1 st1
termination_by sizeOf cs
decreasing_by all_goals (simp; try omega)
end

/-- Embeds `ClusterTree::eliminate`: build a dummy roots container whose children
become the forest's real roots, run the traversal, harvest the dummy
clique's children as the result roots, and merge the externally supplied
remaining factors with the non-null accumulated child-factor slots of the
dummy root.  `heap0` holds the cliques of any prior tree that orphan
wrappers may reference.  Returns (result roots, all remaining factors,
final state). -/
def ClusterTree.eliminate (t : ClusterTree) (elim : EliminateF) (heap0 : Heap) :
    Except (ElimErr × ElimState) (List Nat × List GFactor × ElimState) := do
  let (rootsContainer, h1) := mkEliminationDataRoot heap0
  let st0 : ElimState := { heap := h1, nodesIndex := [], calls := [] }
  let (rc, st1) ← elimTraverseList elim t.roots rootsContainer st0
  let resultRoots := (getNode st1.heap rc.bayesTreeNode).children
  let allRemainingFactors := t.remainingFactors ++ rc.childFactors.filterMap id
  .ok (resultRoots, allRemainingFactors, st1)

/-- Embeds `ClusterTree::eliminateInPlace`: build a dummy roots container around a
scratch clique whose children are the existing tree's roots, run the
in-place traversal, and merge the externally supplied remaining factors
with the non-null accumulated child-factor slots of the dummy root.
`btRoots` are the arena indices of the existing tree's roots. -/
def ClusterTree.eliminateInPlace (t : ClusterTree) (elim : EliminateF)
    (heap0 : Heap) (btRoots : List Nat) :
    Except (ElimErr × ElimState) (List GFactor × ElimState) := do
  let scratchIdx := heap0.length
  let h1 := heap0 ++ [{ children := btRoots }]
  let rootsContainer : EDataIP :=
    { hasParentData := false, myIndexInParent := 0, childFactors := [],
      bayesTreeNode := scratchIdx }
  let st0 : ElimState := { heap := h1, nodesIndex := [], calls := [] }
  let (rc, st1) ← elimTraverseIPList elim t.roots rootsContainer st0
  .ok (t.remainingFactors ++ rc.childFactors.filterMap id, st1)

/-!  Reference semantics: the factor contributed upward by each subtree and
the sequence of elimination-function invocations, defined by direct
recursion on the cluster structure.  The correspondence theorems below show
the traversal realises exactly these. -/

/-- How a remaining factor becomes a child contribution: a null pointer
contributes nothing (the traversal faults there instead), an empty factor
leaves the slot null, a non-empty factor fills it. -/
def contribOfRem : Option GFactor → Option GFactor
  | none => none
  | some rf => if rf.empty then none else some rf

mutual
/-- The factor a subtree hands to its parent's child-factor slot. -/
def clusterContrib (elim : EliminateF) : Cluster → Option GFactor
  | .mk keys factors _ children =>
      contribOfRem (elim (gatherFactors factors (contribList elim children)) keys).2

/-- The contributions of a sibling list, in order. -/
def contribList (elim : EliminateF) : List Cluster → List (Option GFactor)
  | [] => []
  | c :: cs => clusterContrib elim c :: contribList elim cs
end

/-- The factor set handed to the elimination function at a cluster: its own
factors plus every non-null child contribution. -/
def clusterGathered (elim : EliminateF) (c : Cluster) : List GFactor :=
  gatherFactors c.factors (contribList elim c.children)

/-- The conditional produced (and stored into the cluster's clique). -/
def clusterConditional (elim : EliminateF) (c : Cluster) : Conditional :=
  (elim (clusterGathered elim c) c.keys).1

mutual
/-- The post-order sequence of (factor set, order) arguments the traversal
passes to the elimination function over a subtree. -/
def refCalls (elim : EliminateF) : Cluster → List (List GFactor × List Key)
  | .mk keys factors _ children =>
      refCallsList elim children ++
        [(gatherFactors factors (contribList elim children), keys)]

/-- The invocation sequence over a sibling list, left to right. -/
def refCallsList (elim : EliminateF) : List Cluster → List (List GFactor × List Key)
  | [] => []
  | c :: cs => refCalls elim c ++ refCallsList elim cs
end

mutual
/-- The number of clusters in a subtree. -/
def numNodes : Cluster → Nat
  | .mk _ _ _ children => 1 + numNodesList children

/-- The number of clusters in a sibling list. -/
def numNodesList : List Cluster → Nat
  | [] => 0
  | c :: cs => numNodes c + numNodesList cs
end

mutual
/-- Whether some cluster of a subtree carries an orphan wrapper among its
own factors. -/
def hasOrphanCluster : Cluster → Bool
  | .mk _ factors _ children =>
      factors.any GFactor.isOrphan || hasOrphanClusterList children

/-- Predicate `hasOrphanCluster` over a sibling list. -/
def hasOrphanClusterList : List Cluster → Bool
  | [] => false
  | c :: cs => hasOrphanCluster c || hasOrphanClusterList cs
end

/-- The clique indices wrapped by the orphan factors of a factor list. -/
def orphanIndices (fs : List GFactor) : List Nat :=
  fs.filterMap GFactor.orphanIdx

/-!  Scheduling model for the parallel traversal (modelled from the spec:
`treeTraversal::DepthFirstForestParallel` is not under `src/`).  Nodes are
named by their path from the root.  A schedule arbitrarily interleaves the
post-order event streams of sibling subtrees inside each parallel region;
the join barrier forces a node's own post-order event after the merged
children streams. -/

/-- Interleave a family of streams under a choice sequence: each choice
picks the stream whose head is emitted next; exhausted choices flush the
remainder in order.  Every interleaving of the streams (each stream's
internal order preserved) arises from some choice sequence. -/
def mergeStreams {α : Type} : List Nat → List (List α) → List α
  | [], ls => ls.flatten
  | i :: is, ls =>
      match ls.get? i with
      | some (x :: xs) => x :: mergeStreams is (ls.set i xs)
      | _ => mergeStreams is ls

mutual
/-- Modelled from the spec: the sequence of post-order events (node paths)
of the parallel traversal of the subtree rooted at path `p`, under schedule
`sched`: an arbitrary interleaving of the children's event streams followed
— after the join barrier — by this node's own post-order event. -/
def postEvents (sched : List Nat → List Nat) : Cluster → List Nat → List (List Nat)
  | .mk _ _ _ children, p =>
      mergeStreams (sched p) (postEventsList sched children p 0) ++ [p]

/-- The per-child event streams of a sibling list, child `i` rooted at
path `p ++ [i]`. -/
def postEventsList (sched : List Nat → List Nat) :
    List Cluster → List Nat → Nat → List (List (List Nat))
  | [], _, _ => []
  | c :: cs, p, i => postEvents sched c (p ++ [i]) :: postEventsList sched cs p (i + 1)
end

/-- The arena indices the fresh-build traversal allocates for the roots of
a sibling list when the arena has `start` nodes: one fresh clique per
sibling, each subtree then consuming `numNodes` further slots. -/
def rootIdxs : Nat → List Cluster → List Nat
  | _, [] => []
  | start, c :: cs => start :: rootIdxs (start + numNodes c) cs

/-- Projects the state out of a traversal result, whether it succeeded or
carried the state at the moment of an error. -/
def resultState {α : Type} : Except (ElimErr × ElimState) (α × ElimState) → ElimState
  | .ok (_, st) => st
  | .error (_, st) => st

/-- The cluster reached from `c` by a path of child positions. -/
def subtreeAt : Cluster → List Nat → Option Cluster
  | c, [] => some c
  | c, i :: p => (c.children.get? i).bind (fun ci => subtreeAt ci p)

mutual
/-- All factors attached to clusters of a subtree, in traversal order. -/
def allClusterFactors : Cluster → List GFactor
  | .mk _ factors _ children => factors ++ allClusterFactorsList children

/-- All factors attached to clusters of a sibling list. -/
def allClusterFactorsList : List Cluster → List GFactor
  | [] => []
  | c :: cs => allClusterFactors c ++ allClusterFactorsList cs
end

/-- The position of the first occurrence of an event in an event sequence
(the length of the sequence if absent). -/
def eventIndex : List (List Nat) → List Nat → Nat
  | [], _ => 0
  | e :: es, q => if e = q then 0 else eventIndex es q + 1

/-!  Arena lemmas. -/

theorem modifyNode_length (h : Heap) (i : Nat) (f : BTNode → BTNode) :
    (modifyNode h i f).length = h.length := by
  induction h generalizing i with
  | nil => rfl
  | cons n ns ih =>
    cases i with
    | zero => rfl
    | succ j => simp [modifyNode, ih]

theorem modifyNode_oor (h : Heap) (i : Nat) (f : BTNode → BTNode)
    (hle : h.length ≤ i) : modifyNode h i f = h := by
  induction h generalizing i with
  | nil => rfl
  | cons n ns ih =>
    cases i with
    | zero => simp at hle
    | succ j =>
      simp only [modifyNode, List.cons.injEq, true_and]
      exact ih j (by simpa using hle)

theorem getNode_modifyNode_self (h : Heap) (i : Nat) (f : BTNode → BTNode)
    (hi : i < h.length) : getNode (modifyNode h i f) i = f (getNode h i) := by
  induction h generalizing i with
  | nil => simp at hi
  | cons n ns ih =>
    cases i with
    | zero => rfl
    | succ j => simpa [modifyNode, getNode] using ih j (by simpa using hi)

theorem getNode_modifyNode_ne (h : Heap) (i j : Nat) (f : BTNode → BTNode)
    (hne : j ≠ i) : getNode (modifyNode h i f) j = getNode h j := by
  induction h generalizing i j with
  | nil => rfl
  | cons n ns ih =>
    cases i with
    | zero =>
      cases j with
      | zero => exact absurd rfl hne
      | succ k => rfl
    | succ m =>
      cases j with
      | zero => rfl
      | succ k => simpa [modifyNode, getNode] using ih m k (by omega)

theorem getNode_modifyNode_field {β : Type} (g : BTNode → β) (h : Heap)
    (i : Nat) (f : BTNode → BTNode) (j : Nat) (hf : ∀ n, g (f n) = g n) :
    g (getNode (modifyNode h i f) j) = g (getNode h j) := by
  rcases Nat.lt_or_ge i h.length with hi | hi
  · rcases eq_or_ne j i with rfl | hne
    · rw [getNode_modifyNode_self _ _ _ hi, hf]
    · rw [getNode_modifyNode_ne _ _ _ _ hne]
  · rw [modifyNode_oor _ _ _ hi]

theorem getNode_append_lt (h l : Heap) (j : Nat) (hj : j < h.length) :
    getNode (h ++ l) j = getNode h j := by
  induction h generalizing j with
  | nil => simp at hj
  | cons n ns ih =>
    cases j with
    | zero => rfl
    | succ k => simpa [getNode] using ih k (by simpa using hj)

theorem getNode_append_self (h : Heap) (n : BTNode) :
    getNode (h ++ [n]) h.length = n := by
  induction h with
  | nil => rfl
  | cons m ms _ih => simp [getNode]

theorem getNode_oor (h : Heap) (i : Nat) (hi : h.length ≤ i) :
    getNode h i = default := by
  induction h generalizing i with
  | nil => cases i <;> rfl
  | cons n ns ih =>
    cases i with
    | zero => simp at hi
    | succ j => simpa [getNode] using ih j (by simpa using hi)

theorem length_setParentPtr (h : Heap) (c p : Nat) :
    (setParentPtr h c p).length = h.length := modifyNode_length h c _

theorem length_pushChild (h : Heap) (p c : Nat) :
    (pushChild h p c).length = h.length := modifyNode_length h p _

theorem children_setParentPtr (h : Heap) (c p j : Nat) :
    (getNode (setParentPtr h c p) j).children = (getNode h j).children :=
  getNode_modifyNode_field BTNode.children h c _ j (fun _ => rfl)

theorem conditional_setParentPtr (h : Heap) (c p j : Nat) :
    (getNode (setParentPtr h c p) j).conditional = (getNode h j).conditional :=
  getNode_modifyNode_field BTNode.conditional h c _ j (fun _ => rfl)

theorem conditional_pushChild (h : Heap) (p c j : Nat) :
    (getNode (pushChild h p c) j).conditional = (getNode h j).conditional :=
  getNode_modifyNode_field BTNode.conditional h p _ j (fun _ => rfl)

theorem parent_pushChild (h : Heap) (p c j : Nat) :
    (getNode (pushChild h p c) j).parent_ = (getNode h j).parent_ :=
  getNode_modifyNode_field BTNode.parent_ h p _ j (fun _ => rfl)

theorem children_pushChild_ne (h : Heap) (p c j : Nat) (hne : j ≠ p) :
    (getNode (pushChild h p c) j).children = (getNode h j).children := by
  unfold pushChild
  rw [getNode_modifyNode_ne _ _ _ _ hne]

theorem children_pushChild_self (h : Heap) (p c : Nat) (hp : p < h.length) :
    (getNode (pushChild h p c) p).children = (getNode h p).children ++ [c] := by
  unfold pushChild
  rw [getNode_modifyNode_self _ _ _ hp]

theorem length_attachOrphans (h : Heap) (m : Nat) (fs : List GFactor) :
    (attachOrphans h m fs).length = h.length := by
  induction fs generalizing h with
  | nil => rfl
  | cons f fs ih =>
    cases f with
    | ordinary i ks => simpa [attachOrphans] using ih h
    | orphan c =>
      simp only [attachOrphans]
      rw [ih, length_setParentPtr, length_pushChild]

theorem conditional_attachOrphans (h : Heap) (m : Nat) (fs : List GFactor)
    (j : Nat) :
    (getNode (attachOrphans h m fs) j).conditional = (getNode h j).conditional := by
  induction fs generalizing h with
  | nil => rfl
  | cons f fs ih =>
    cases f with
    | ordinary i ks => simpa [attachOrphans] using ih h
    | orphan c =>
      simp only [attachOrphans]
      rw [ih, conditional_setParentPtr, conditional_pushChild]

theorem children_attachOrphans_ne (h : Heap) (m : Nat) (fs : List GFactor)
    (j : Nat) (hne : j ≠ m) :
    (getNode (attachOrphans h m fs) j).children = (getNode h j).children := by
  induction fs generalizing h with
  | nil => rfl
  | cons f fs ih =>
    cases f with
    | ordinary i ks => simpa [attachOrphans] using ih h
    | orphan c =>
      simp only [attachOrphans]
      rw [ih, children_setParentPtr, children_pushChild_ne _ _ _ _ hne]

theorem children_attachOrphans_self (h : Heap) (m : Nat) (fs : List GFactor)
    (hm : m < h.length) :
    (getNode (attachOrphans h m fs) m).children =
      (getNode h m).children ++ orphanIndices fs := by
  induction fs generalizing h with
  | nil => simp [attachOrphans, orphanIndices]
  | cons f fs ih =>
    cases f with
    | ordinary i ks =>
      simpa [attachOrphans, orphanIndices, GFactor.orphanIdx] using ih h hm
    | orphan c =>
      simp only [attachOrphans]
      rw [ih _ (by rw [length_setParentPtr, length_pushChild]; exact hm),
        children_setParentPtr, children_pushChild_self _ _ _ hm]
      simp [orphanIndices, GFactor.orphanIdx]

theorem parent_setParentPtr_self (h : Heap) (c p : Nat) (hc : c < h.length) :
    (getNode (setParentPtr h c p) c).parent_ = some p := by
  unfold setParentPtr
  rw [getNode_modifyNode_self _ _ _ hc]

theorem parent_setParentPtr_ne (h : Heap) (c p j : Nat) (hne : j ≠ c) :
    (getNode (setParentPtr h c p) j).parent_ = (getNode h j).parent_ := by
  unfold setParentPtr
  rw [getNode_modifyNode_ne _ _ _ _ hne]

theorem parent_attachOrphans_preserved (h : Heap) (m : Nat) (fs : List GFactor)
    (j : Nat) (hj : (getNode h j).parent_ = some m) :
    (getNode (attachOrphans h m fs) j).parent_ = some m := by
  induction fs generalizing h with
  | nil => exact hj
  | cons f fs ih =>
    cases f with
    | ordinary i ks => simpa [attachOrphans] using ih h hj
    | orphan c =>
      simp only [attachOrphans]
      apply ih
      rcases eq_or_ne j c with rfl | hne
      · rcases Nat.lt_or_ge j (pushChild h m j).length with hlt | hge
        · exact parent_setParentPtr_self _ _ _ hlt
        · unfold setParentPtr
          rw [modifyNode_oor _ _ _ hge, parent_pushChild]
          exact hj
      · rw [parent_setParentPtr_ne _ _ _ _ hne, parent_pushChild]
        exact hj

theorem parent_attachOrphans_mem (h : Heap) (m : Nat) (fs : List GFactor)
    (o : Nat) (ho : o ∈ orphanIndices fs) (holt : o < h.length) :
    (getNode (attachOrphans h m fs) o).parent_ = some m := by
  induction fs generalizing h with
  | nil => simp [orphanIndices] at ho
  | cons f fs ih =>
    cases f with
    | ordinary i ks =>
      simp only [orphanIndices, List.filterMap_cons, GFactor.orphanIdx] at ho
      simpa [attachOrphans] using ih h (by simpa [orphanIndices] using ho) holt
    | orphan c =>
      simp only [attachOrphans]
      rcases eq_or_ne o c with rfl | hne
      · apply parent_attachOrphans_preserved
        exact parent_setParentPtr_self _ _ _
          (by rw [length_pushChild]; exact holt)
      · have ho' : o ∈ orphanIndices fs := by
          simp only [orphanIndices, List.filterMap_cons, GFactor.orphanIdx] at ho
          rcases List.mem_cons.1 ho with h1 | h1
          · exact absurd h1 hne
          · simpa [orphanIndices] using h1
        exact ih _ ho'
          (by rw [length_setParentPtr, length_pushChild]; exact holt)

theorem set_append_length {α : Type} (l : List α) (a b : α) :
    (l ++ [a]).set l.length b = l ++ [b] := by
  induction l with
  | nil => rfl
  | cons x xs ih => simp [List.set, ih]

/-!  Unfolding helpers for the traversal. -/

theorem ebind_ok {ε α β : Type} (a : α) (f : α → Except ε β) :
    (Except.ok a : Except ε α) >>= f = f a := rfl

theorem ebind_err {ε α β : Type} (e : ε) (f : α → Except ε β) :
    (Except.error e : Except ε α) >>= f = Except.error e := rfl

theorem elimTraverse_step (elim : EliminateF) (ks : List Key) (fs : List GFactor)
    (ps : Int) (ch : List Cluster) (parent : EData) (st : ElimState)
    (d1 : EData) (st2 : ElimState)
    (hlist : elimTraverseList elim ch
        { hasParentData := true, myIndexInParent := parent.childFactors.length,
          childFactors := [], bayesTreeNode := st.heap.length }
        { heap := modifyNode (pushChild
              (if parent.hasParentData
                then setParentPtr (st.heap ++ [newBTNode]) st.heap.length parent.bayesTreeNode
                else st.heap ++ [newBTNode])
              parent.bayesTreeNode st.heap.length)
            st.heap.length (fun n => { n with problemSize_ := ps }),
          nodesIndex := st.nodesIndex, calls := st.calls } = .ok (d1, st2))
    (rf : GFactor)
    (hrf : (elim (gatherFactors fs d1.childFactors) ks).2 = some rf) :
    elimTraverse elim (.mk ks fs ps ch) parent st = .ok
      ({ hasParentData := parent.hasParentData,
         myIndexInParent := parent.myIndexInParent,
         childFactors :=
           if rf.empty then parent.childFactors ++ [none]
           else (parent.childFactors ++ [none]).set d1.myIndexInParent (some rf),
         bayesTreeNode := parent.bayesTreeNode },
       { heap := attachOrphans
            (modifyNode st2.heap d1.bayesTreeNode
              (fun n => { n with
                conditional := some (elim (gatherFactors fs d1.childFactors) ks).1 }))
            d1.bayesTreeNode fs,
         nodesIndex := st2.nodesIndex ++
            (storedFrontals
              (attachOrphans
                (modifyNode st2.heap d1.bayesTreeNode
                  (fun n => { n with
                    conditional := some (elim (gatherFactors fs d1.childFactors) ks).1 }))
                d1.bayesTreeNode fs)
              d1.bayesTreeNode).map (fun j => (j, d1.bayesTreeNode)),
         calls := st2.calls ++
            [⟨d1.bayesTreeNode, gatherFactors fs d1.childFactors, ks⟩] }) := by
  rw [elimTraverse]
  simp only [mkEliminationData, Cluster.children, Cluster.keys, Cluster.factors,
    Cluster.problemSize]
  rw [hlist, ebind_ok]
  simp only [eliminationPostOrderVisitor, eliminationPostOrderVisitorHelper,
    Cluster.keys, Cluster.factors, hrf]
  by_cases hemp : rf.empty
  · simp only [hemp, if_true, ebind_ok]
  · simp only [hemp, if_false, Bool.false_eq_true, ebind_ok]

/-!  Specialised field-preservation lemmas for the two arena updates the
traversal performs with `modifyNode` directly. -/

theorem conditional_modifyPS (h : Heap) (i : Nat) (ps : Int) (j : Nat) :
    (getNode (modifyNode h i (fun n => { n with problemSize_ := ps })) j).conditional =
      (getNode h j).conditional :=
  getNode_modifyNode_field BTNode.conditional h i _ j (fun _ => rfl)

theorem children_modifyPS (h : Heap) (i : Nat) (ps : Int) (j : Nat) :
    (getNode (modifyNode h i (fun n => { n with problemSize_ := ps })) j).children =
      (getNode h j).children :=
  getNode_modifyNode_field BTNode.children h i _ j (fun _ => rfl)

theorem parent_modifyPS (h : Heap) (i : Nat) (ps : Int) (j : Nat) :
    (getNode (modifyNode h i (fun n => { n with problemSize_ := ps })) j).parent_ =
      (getNode h j).parent_ :=
  getNode_modifyNode_field BTNode.parent_ h i _ j (fun _ => rfl)

theorem children_modifyCond (h : Heap) (i : Nat) (x : Option Conditional) (j : Nat) :
    (getNode (modifyNode h i (fun n => { n with conditional := x })) j).children =
      (getNode h j).children :=
  getNode_modifyNode_field BTNode.children h i _ j (fun _ => rfl)

theorem parent_modifyCond (h : Heap) (i : Nat) (x : Option Conditional) (j : Nat) :
    (getNode (modifyNode h i (fun n => { n with conditional := x })) j).parent_ =
      (getNode h j).parent_ :=
  getNode_modifyNode_field BTNode.parent_ h i _ j (fun _ => rfl)

/-!  Correspondence of the fresh-build traversal with the reference
semantics, by mutual induction on the cluster structure. -/

mutual
theorem elimTraverse_spec (elim : EliminateF)
    (Ht : ∀ gs ks, ((elim gs ks).2).isSome = true)
    (c : Cluster) (parent : EData) (st : ElimState) :
    ∃ (st' : ElimState) (added : List ElimCall),
      elimTraverse elim c parent st =
        .ok ({ parent with childFactors :=
                  parent.childFactors ++ [clusterContrib elim c] }, st') ∧
      st'.calls = st.calls ++ added ∧
      added.map ElimCall.args = refCalls elim c ∧
      st'.heap.length = st.heap.length + numNodes c ∧
      (∀ j, j < st.heap.length →
        (getNode st'.heap j).conditional = (getNode st.heap j).conditional) ∧
      (∀ j, j < st.heap.length → j ≠ parent.bayesTreeNode →
        (getNode st'.heap j).children = (getNode st.heap j).children) ∧
      (parent.bayesTreeNode < st.heap.length →
        (getNode st'.heap parent.bayesTreeNode).children =
          (getNode st.heap parent.bayesTreeNode).children ++ [st.heap.length]) ∧
      (∀ e ∈ added, st.heap.length ≤ e.cliqueIdx ∧ e.cliqueIdx < st'.heap.length ∧
        (getNode st'.heap e.cliqueIdx).conditional =
          some (elim e.factors e.order).1) := by
  cases c with
  | mk ks fs ps ch =>
    set H4 := modifyNode (pushChild
          (if parent.hasParentData
            then setParentPtr (st.heap ++ [newBTNode]) st.heap.length parent.bayesTreeNode
            else st.heap ++ [newBTNode])
          parent.bayesTreeNode st.heap.length)
        st.heap.length (fun n => { n with problemSize_ := ps }) with hH4
    obtain ⟨st2, added1, hlist, hcalls1, hargs1, hlen1, hcond1, hchild1, hcs1, hent1⟩ :=
      elimTraverseList_spec elim Ht ch
        { hasParentData := true, myIndexInParent := parent.childFactors.length,
          childFactors := [], bayesTreeNode := st.heap.length }
        { heap := H4, nodesIndex := st.nodesIndex, calls := st.calls }
    have hlen1' : st2.heap.length = H4.length + numNodesList ch := hlen1
    have hcalls1' : st2.calls = st.calls ++ added1 := hcalls1
    have hcond1' : ∀ j, j < H4.length →
        (getNode st2.heap j).conditional = (getNode H4 j).conditional := hcond1
    have hchild1' : ∀ j, j < H4.length → j ≠ st.heap.length →
        (getNode st2.heap j).children = (getNode H4 j).children := hchild1
    have hlist' : elimTraverseList elim ch
        { hasParentData := true, myIndexInParent := parent.childFactors.length,
          childFactors := [], bayesTreeNode := st.heap.length }
        { heap := H4, nodesIndex := st.nodesIndex, calls := st.calls } =
        .ok ({ hasParentData := true, myIndexInParent := parent.childFactors.length,
               childFactors := contribList elim ch,
               bayesTreeNode := st.heap.length }, st2) := hlist
    have hlenH4 : H4.length = st.heap.length + 1 := by
      rw [hH4, modifyNode_length, length_pushChild]
      rcases parent.hasParentData with _ | _ <;> simp [length_setParentPtr]
    have hcondH4 : ∀ j, (getNode H4 j).conditional =
        (getNode (st.heap ++ [newBTNode]) j).conditional := by
      intro j
      rw [hH4, conditional_modifyPS, conditional_pushChild]
      rcases hpd : parent.hasParentData with _ | _
      · simp
      · simp [conditional_setParentPtr]
    have hchildH4 : ∀ j, j ≠ parent.bayesTreeNode →
        (getNode H4 j).children = (getNode (st.heap ++ [newBTNode]) j).children := by
      intro j hj
      rw [hH4, children_modifyPS, children_pushChild_ne _ _ _ _ hj]
      rcases hpd : parent.hasParentData with _ | _
      · simp
      · simp [children_setParentPtr]
    have hchildH4q : parent.bayesTreeNode < st.heap.length →
        (getNode H4 parent.bayesTreeNode).children =
          (getNode st.heap parent.bayesTreeNode).children ++ [st.heap.length] := by
      intro hq
      have hqlen : parent.bayesTreeNode <
          (if parent.hasParentData
            then setParentPtr (st.heap ++ [newBTNode]) st.heap.length parent.bayesTreeNode
            else st.heap ++ [newBTNode]).length := by
        rcases parent.hasParentData with _ | _ <;>
          simp [length_setParentPtr] <;> omega
      rw [hH4, children_modifyPS, children_pushChild_self _ _ _ hqlen]
      congr 1
      rcases hpd : parent.hasParentData with _ | _
      · simp [getNode_append_lt _ _ _ hq]
      · simp [children_setParentPtr, getNode_append_lt _ _ _ hq]
    rcases hsome : (elim (gatherFactors fs (contribList elim ch)) ks).2 with _ | rf
    · have h := Ht (gatherFactors fs (contribList elim ch)) ks
      rw [hsome] at h
      simp at h
    · have heq := elimTraverse_step elim ks fs ps ch parent st
        { hasParentData := true, myIndexInParent := parent.childFactors.length,
          childFactors := contribList elim ch, bayesTreeNode := st.heap.length }
        st2 hlist' rf hsome
      have heq' : elimTraverse elim (.mk ks fs ps ch) parent st = .ok
          ({ hasParentData := parent.hasParentData,
             myIndexInParent := parent.myIndexInParent,
             childFactors :=
               if rf.empty then parent.childFactors ++ [none]
               else (parent.childFactors ++ [none]).set parent.childFactors.length (some rf),
             bayesTreeNode := parent.bayesTreeNode },
           { heap := attachOrphans (modifyNode st2.heap st.heap.length
                (fun n => { n with
                  conditional := some (elim (gatherFactors fs (contribList elim ch)) ks).1 }))
                st.heap.length fs,
             nodesIndex := st2.nodesIndex ++
                (storedFrontals (attachOrphans (modifyNode st2.heap st.heap.length
                  (fun n => { n with
                    conditional := some (elim (gatherFactors fs (contribList elim ch)) ks).1 }))
                  st.heap.length fs) st.heap.length).map (fun j => (j, st.heap.length)),
             calls := st2.calls ++
                [⟨st.heap.length, gatherFactors fs (contribList elim ch), ks⟩] }) := heq
      refine
        ⟨{ heap := attachOrphans (modifyNode st2.heap st.heap.length
                      (fun n => { n with
                        conditional := some (elim (gatherFactors fs (contribList elim ch)) ks).1 }))
                    st.heap.length fs,
           nodesIndex := st2.nodesIndex ++
                (storedFrontals (attachOrphans (modifyNode st2.heap st.heap.length
                      (fun n => { n with
                        conditional := some (elim (gatherFactors fs (contribList elim ch)) ks).1 }))
                    st.heap.length fs) st.heap.length).map (fun j => (j, st.heap.length)),
           calls := st2.calls ++
                [⟨st.heap.length, gatherFactors fs (contribList elim ch), ks⟩] },
          added1 ++ [⟨st.heap.length, gatherFactors fs (contribList elim ch), ks⟩],
          ?_, ?_, ?_, ?_, ?_, ?_, ?_, ?_⟩
      · have hcf : (if rf.empty then parent.childFactors ++ [none]
            else (parent.childFactors ++ [none]).set parent.childFactors.length (some rf)) =
            parent.childFactors ++ [clusterContrib elim (.mk ks fs ps ch)] := by
          rcases hemp : rf.empty with _ | _
          · simp only [Bool.false_eq_true, if_false, set_append_length, clusterContrib,
              hsome, contribOfRem, hemp]
          · simp [clusterContrib, hsome, contribOfRem, hemp]
        rw [heq', hcf]
      · simp only [hcalls1', List.append_assoc]
      · simp only [List.map_append, hargs1, List.map_cons, List.map_nil,
          ElimCall.args, refCalls]
      · simp only [length_attachOrphans, modifyNode_length, numNodes]
        omega
      · intro j hj
        rw [conditional_attachOrphans,
          getNode_modifyNode_ne _ _ _ _ (by omega : j ≠ st.heap.length),
          hcond1' j (by omega), hcondH4 j, getNode_append_lt _ _ _ hj]
      · intro j hj hjne
        rw [children_attachOrphans_ne _ _ _ _ (by omega : j ≠ st.heap.length),
          children_modifyCond,
          hchild1' j (by omega) (by omega : j ≠ st.heap.length),
          hchildH4 j hjne, getNode_append_lt _ _ _ hj]
      · intro hq
        have hqne : parent.bayesTreeNode ≠ st.heap.length := Nat.ne_of_lt hq
        rw [children_attachOrphans_ne _ _ _ _ hqne, children_modifyCond,
          hchild1' parent.bayesTreeNode (by omega) hqne, hchildH4q hq]
      · intro e he
        rcases List.mem_append.1 he with he1 | he2
        · obtain ⟨hlb, hub, hcnd⟩ := hent1 e he1
          have hlb' : H4.length ≤ e.cliqueIdx := hlb
          have hub' : e.cliqueIdx < st2.heap.length := hub
          refine ⟨by omega, ?_, ?_⟩
          · simp only [length_attachOrphans, modifyNode_length]
            omega
          · rw [conditional_attachOrphans,
              getNode_modifyNode_ne _ _ _ _ (by omega : e.cliqueIdx ≠ st.heap.length)]
            exact hcnd
        · have heidx : e = ⟨st.heap.length, gatherFactors fs (contribList elim ch), ks⟩ := by
            simpa using he2
          subst heidx
          refine ⟨le_refl _, ?_, ?_⟩
          · simp only [length_attachOrphans, modifyNode_length]
            omega
          · rw [conditional_attachOrphans,
              getNode_modifyNode_self _ _ _ (by omega : st.heap.length < st2.heap.length)]
termination_by sizeOf c
decreasing_by cases c with | mk k f p ch => simp [Cluster.children]; try omega

theorem elimTraverseList_spec (elim : EliminateF)
    (Ht : ∀ gs ks, ((elim gs ks).2).isSome = true)
    (cs : List Cluster) (d : EData) (st : ElimState) :
    ∃ (st' : ElimState) (added : List ElimCall),
      elimTraverseList elim cs d st =
        .ok ({ d with childFactors := d.childFactors ++ contribList elim cs }, st') ∧
      st'.calls = st.calls ++ added ∧
      added.map ElimCall.args = refCallsList elim cs ∧
      st'.heap.length = st.heap.length + numNodesList cs ∧
      (∀ j, j < st.heap.length →
        (getNode st'.heap j).conditional = (getNode st.heap j).conditional) ∧
      (∀ j, j < st.heap.length → j ≠ d.bayesTreeNode →
        (getNode st'.heap j).children = (getNode st.heap j).children) ∧
      (d.bayesTreeNode < st.heap.length →
        (getNode st'.heap d.bayesTreeNode).children =
          (getNode st.heap d.bayesTreeNode).children ++ rootIdxs st.heap.length cs) ∧
      (∀ e ∈ added, st.heap.length ≤ e.cliqueIdx ∧ e.cliqueIdx < st'.heap.length ∧
        (getNode st'.heap e.cliqueIdx).conditional =
          some (elim e.factors e.order).1) := by
  cases cs with
  | nil =>
    refine ⟨st, [], ?_, by simp, by simp [refCallsList], by simp [numNodesList],
      fun j _ => rfl, fun j _ _ => rfl, by simp [rootIdxs], by simp⟩
    rw [elimTraverseList]
    simp [contribList]
  | cons c rest =>
    obtain ⟨st1, added1, hc, hcalls1, hargs1, hlen1, hcond1, hchild1, hcs1, hent1⟩ :=
      elimTraverse_spec elim Ht c d st
    obtain ⟨st2, added2, hr, hcalls2, hargs2, hlen2, hcond2, hchild2, hcs2, hent2⟩ :=
      elimTraverseList_spec elim Ht rest
        { d with childFactors := d.childFactors ++ [clusterContrib elim c] } st1
    have hchild2' : ∀ j, j < st1.heap.length → j ≠ d.bayesTreeNode →
        (getNode st2.heap j).children = (getNode st1.heap j).children := hchild2
    have hcs2' : d.bayesTreeNode < st1.heap.length →
        (getNode st2.heap d.bayesTreeNode).children =
          (getNode st1.heap d.bayesTreeNode).children ++
            rootIdxs st1.heap.length rest := hcs2
    refine ⟨st2, added1 ++ added2, ?_, ?_, ?_, ?_, ?_, ?_, ?_, ?_⟩
    · rw [elimTraverseList]
      simp only [hc, ebind_ok, hr]
      simp [contribList, List.append_assoc]
    · rw [hcalls2, hcalls1, List.append_assoc]
    · simp only [List.map_append, hargs1, hargs2, refCallsList]
    · rw [hlen2, hlen1, numNodesList]; omega
    · intro j hj
      rw [hcond2 j (by omega), hcond1 j hj]
    · intro j hj hne
      rw [hchild2' j (by omega) hne, hchild1 j hj hne]
    · intro hq
      rw [hcs2' (by omega), hcs1 hq, hlen1, rootIdxs, List.append_assoc,
        List.singleton_append]
    · intro e he
      rcases List.mem_append.1 he with he1 | he2
      · obtain ⟨hlb, hub, hcnd⟩ := hent1 e he1
        exact ⟨hlb, by omega, by rw [hcond2 e.cliqueIdx hub]; exact hcnd⟩
      · obtain ⟨hlb, hub, hcnd⟩ := hent2 e he2
        exact ⟨by omega, by omega, hcnd⟩
termination_by sizeOf cs
decreasing_by all_goals (simp; try omega)
end

/-- Characterisation of `ClusterTree::eliminate` under the precondition that
the elimination function always returns a non-null remaining factor: it
succeeds; the result roots are the fresh cliques allocated for the real
roots, harvested from the dummy clique's children; the returned factor
collection is the externally supplied remaining factors followed by the
non-null root contributions; the invocation log matches the reference call
sequence; and every logged invocation's conditional is stored at its
clique. -/
theorem eliminate_spec (elim : EliminateF)
    (Ht : ∀ gs ks, ((elim gs ks).2).isSome = true)
    (t : ClusterTree) (heap0 : Heap) :
    ∃ st' : ElimState,
      t.eliminate elim heap0 =
        .ok (rootIdxs (heap0.length + 1) t.roots,
             t.remainingFactors ++ (contribList elim t.roots).filterMap id, st') ∧
      st'.calls.map ElimCall.args = refCallsList elim t.roots ∧
      (∀ e ∈ st'.calls, (getNode st'.heap e.cliqueIdx).conditional =
        some (elim e.factors e.order).1) ∧
      (getNode st'.heap heap0.length).children =
        rootIdxs (heap0.length + 1) t.roots := by
  obtain ⟨st', added, hr, hcalls, hargs, hlen, hcond, hchild, hcs, hent⟩ :=
    elimTraverseList_spec elim Ht t.roots
      { hasParentData := false, myIndexInParent := 0, childFactors := [],
        bayesTreeNode := heap0.length }
      { heap := heap0 ++ [newBTNode], nodesIndex := [], calls := [] }
  have hcalls' : st'.calls = added := hcalls
  have hcs' : (getNode st'.heap heap0.length).children =
      (getNode (heap0 ++ [newBTNode]) heap0.length).children ++
        rootIdxs (heap0.length + 1) t.roots := by
    have := hcs
    simp only [List.length_append, List.length_singleton] at this
    exact this (Nat.lt_succ_self _)
  have hdummy : (getNode st'.heap heap0.length).children =
      rootIdxs (heap0.length + 1) t.roots := by
    rw [hcs', getNode_append_self]
    rfl
  refine ⟨st', ?_, by rw [hcalls']; exact hargs, ?_, hdummy⟩
  · rw [ClusterTree.eliminate]
    simp only [mkEliminationDataRoot, hr, ebind_ok]
    congr 1
    refine Prod.ext ?_ (Prod.ext ?_ rfl)
    · exact hdummy
    · rfl
  · intro e he
    exact (hent e (by rw [hcalls'] at he; exact he)).2.2

/-!  In-place traversal: totality under the non-null-remaining-factor
precondition, and the orphan configuration error. -/

mutual
theorem elimTraverseIP_total (elim : EliminateF)
    (Ht : ∀ gs ks, ((elim gs ks).2).isSome = true)
    (c : Cluster) (parent : EDataIP) (st : ElimState) :
    (hasOrphanCluster c = false →
      ∃ d' st', elimTraverseIP elim c parent st = .ok (d', st')) ∧
    (hasOrphanCluster c = true →
      ∃ st'', elimTraverseIP elim c parent st = .error (.orphanInPlace, st'')) := by
  cases c with
  | mk ks fs ps ch =>
    rw [elimTraverseIP]
    simp only [mkEliminationDataInPlace, Cluster.children, Cluster.keys,
      Cluster.factors, Cluster.problemSize]
    constructor
    · intro hno
      simp only [hasOrphanCluster, Bool.or_eq_false_iff] at hno
      obtain ⟨d1, st2, hlist⟩ :=
        (elimTraverseIPList_total elim Ht ch _ _).1 hno.2
      rw [hlist, ebind_ok]
      simp only [eliminationPostOrderVisitorInPlace, Cluster.factors, hno.1,
        Bool.false_eq_true, if_false, eliminationPostOrderVisitorHelper,
        Cluster.keys]
      rcases hsome : (elim (gatherFactors fs d1.childFactors) ks).2 with _ | rf
      · have h := Ht (gatherFactors fs d1.childFactors) ks
        rw [hsome] at h
        simp at h
      · rcases hemp : rf.empty with _ | _ <;>
          simp only [hemp, Bool.false_eq_true, if_false, if_true, ebind_ok] <;>
          exact ⟨_, _, rfl⟩
    · intro hyes
      simp only [hasOrphanCluster, Bool.or_eq_true_iff] at hyes
      rcases hlch : hasOrphanClusterList ch with _ | _
      · have hfs : fs.any GFactor.isOrphan = true := by
          rcases hyes with h | h
          · exact h
          · rw [hlch] at h; cases h
        obtain ⟨d1, st2, hlist⟩ :=
          (elimTraverseIPList_total elim Ht ch _ _).1 hlch
        rw [hlist, ebind_ok]
        simp only [eliminationPostOrderVisitorInPlace, Cluster.factors, hfs,
          if_true, ebind_err]
        exact ⟨_, rfl⟩
      · obtain ⟨st'', hlist⟩ :=
          (elimTraverseIPList_total elim Ht ch _ _).2 hlch
        rw [hlist, ebind_err]
        exact ⟨_, rfl⟩
termination_by sizeOf c
decreasing_by all_goals (cases c with | mk k f p ch => simp [Cluster.children]; try omega)

theorem elimTraverseIPList_total (elim : EliminateF)
    (Ht : ∀ gs ks, ((elim gs ks).2).isSome = true)
    (cs : List Cluster) (d : EDataIP) (st : ElimState) :
    (hasOrphanClusterList cs = false →
      ∃ d' st', elimTraverseIPList elim cs d st = .ok (d', st')) ∧
    (hasOrphanClusterList cs = true →
      ∃ st'', elimTraverseIPList elim cs d st = .error (.orphanInPlace, st'')) := by
  cases cs with
  | nil =>
    constructor
    · intro _
      rw [elimTraverseIPList]
      exact ⟨_, _, rfl⟩
    · intro h
      simp [hasOrphanClusterList] at h
  | cons c rest =>
    rw [elimTraverseIPList]
    constructor
    · intro hno
      simp only [hasOrphanClusterList, Bool.or_eq_false_iff] at hno
      obtain ⟨d1, st1, hc⟩ := (elimTraverseIP_total elim Ht c d st).1 hno.1
      rw [hc, ebind_ok]
      exact (elimTraverseIPList_total elim Ht rest d1 st1).1 hno.2
    · intro hyes
      simp only [hasOrphanClusterList, Bool.or_eq_true_iff] at hyes
      rcases hoc : hasOrphanCluster c with _ | _
      · have hrest : hasOrphanClusterList rest = true := by
          rcases hyes with h | h
          · rw [hoc] at h; cases h
          · exact h
        obtain ⟨d1, st1, hc⟩ := (elimTraverseIP_total elim Ht c d st).1 hoc
        rw [hc, ebind_ok]
        exact (elimTraverseIPList_total elim Ht rest d1 st1).2 hrest
      · obtain ⟨st'', hc⟩ := (elimTraverseIP_total elim Ht c d st).2 hoc
        rw [hc, ebind_err]
        exact ⟨_, rfl⟩
termination_by sizeOf cs
decreasing_by all_goals (simp; try omega)
end

/-!  In-place traversal mutates a clique's stored conditional only at the
cliques of logged elimination invocations. -/

theorem helper_mut (elim : EliminateF) (node : Cluster) (myIdx myIip : Nat)
    (cf pcf : List (Option GFactor)) (st : ElimState) :
    ∃ added : List ElimCall,
      (resultState (eliminationPostOrderVisitorHelper elim node myIdx myIip cf pcf st)).calls =
        st.calls ++ added ∧
      ∀ j, j ∉ added.map ElimCall.cliqueIdx →
        (getNode (resultState
          (eliminationPostOrderVisitorHelper elim node myIdx myIip cf pcf st)).heap
            j).conditional =
          (getNode st.heap j).conditional := by
  refine ⟨[⟨myIdx, gatherFactors node.factors cf, node.keys⟩], ?_, ?_⟩
  · simp only [eliminationPostOrderVisitorHelper]
    rcases hsome : (elim (gatherFactors node.factors cf) node.keys).2 with _ | rf
    · simp [resultState]
    · rcases hemp : rf.empty with _ | _ <;> simp [resultState, hemp]
  · intro j hj
    simp only [List.map_cons, List.map_nil, List.mem_cons, not_or] at hj
    simp only [eliminationPostOrderVisitorHelper]
    rcases hsome : (elim (gatherFactors node.factors cf) node.keys).2 with _ | rf
    · simp only [resultState]
      rw [getNode_modifyNode_ne _ _ _ _ hj.1]
    · rcases hemp : rf.empty with _ | _ <;>
        · simp only [resultState, hemp, Bool.false_eq_true, if_false, if_true]
          rw [getNode_modifyNode_ne _ _ _ _ hj.1]

mutual
theorem elimTraverseIP_mut (elim : EliminateF) (c : Cluster) (parent : EDataIP)
    (st : ElimState) :
    ∃ added : List ElimCall,
      (resultState (elimTraverseIP elim c parent st)).calls = st.calls ++ added ∧
      ∀ j, j ∉ added.map ElimCall.cliqueIdx →
        (getNode (resultState (elimTraverseIP elim c parent st)).heap j).conditional =
          (getNode st.heap j).conditional := by
  cases c with
  | mk ks fs ps ch =>
    rw [elimTraverseIP]
    simp only [mkEliminationDataInPlace, Cluster.children, Cluster.keys,
      Cluster.factors, Cluster.problemSize]
    obtain ⟨added1, hcalls1, hcond1⟩ := elimTraverseIPList_mut elim ch
      { hasParentData := true, myIndexInParent := parent.childFactors.length,
        childFactors := [],
        bayesTreeNode := (getNode st.heap parent.bayesTreeNode).children.getD
          parent.childFactors.length 0 }
      { heap := modifyNode st.heap
          ((getNode st.heap parent.bayesTreeNode).children.getD
            parent.childFactors.length 0)
          (fun n => { n with problemSize_ := ps }),
        nodesIndex := st.nodesIndex, calls := st.calls }
    rcases hch : elimTraverseIPList elim ch
        { hasParentData := true, myIndexInParent := parent.childFactors.length,
          childFactors := [],
          bayesTreeNode := (getNode st.heap parent.bayesTreeNode).children.getD
            parent.childFactors.length 0 }
        { heap := modifyNode st.heap
            ((getNode st.heap parent.bayesTreeNode).children.getD
              parent.childFactors.length 0)
            (fun n => { n with problemSize_ := ps }),
          nodesIndex := st.nodesIndex, calls := st.calls } with es | out
    · rcases es with ⟨e, stE⟩
      rw [hch] at hcalls1 hcond1
      simp only [resultState] at hcalls1 hcond1
      have hcalls1' : stE.calls = st.calls ++ added1 := hcalls1
      have hcond1' : ∀ j, j ∉ added1.map ElimCall.cliqueIdx →
          (getNode stE.heap j).conditional = (getNode st.heap j).conditional := by
        intro j hj
        rw [hcond1 j hj, conditional_modifyPS]
      refine ⟨added1, ?_, ?_⟩
      · simpa [ebind_err, resultState] using hcalls1'
      · intro j hj
        simpa [ebind_err, resultState] using hcond1' j hj
    · rcases out with ⟨d1, st2⟩
      rw [hch] at hcalls1 hcond1
      simp only [resultState] at hcalls1 hcond1
      have hcalls1' : st2.calls = st.calls ++ added1 := hcalls1
      have hcond1' : ∀ j, j ∉ added1.map ElimCall.cliqueIdx →
          (getNode st2.heap j).conditional = (getNode st.heap j).conditional := by
        intro j hj
        rw [hcond1 j hj, conditional_modifyPS]
      rw [ebind_ok]
      simp only [eliminationPostOrderVisitorInPlace, Cluster.factors, Cluster.keys]
      rcases horph : fs.any GFactor.isOrphan with _ | _
      · simp only [Bool.false_eq_true, if_false]
        obtain ⟨added2, hcalls2, hcond2⟩ :=
          helper_mut elim (.mk ks fs ps ch) d1.bayesTreeNode d1.myIndexInParent
            d1.childFactors (parent.childFactors ++ [none]) st2
        rcases hh : eliminationPostOrderVisitorHelper elim (.mk ks fs ps ch)
            d1.bayesTreeNode d1.myIndexInParent d1.childFactors
            (parent.childFactors ++ [none]) st2 with he | ho
        · rcases he with ⟨e2, stE2⟩
          rw [hh] at hcalls2 hcond2
          simp only [resultState] at hcalls2 hcond2
          rw [ebind_err]
          refine ⟨added1 ++ added2, ?_, ?_⟩
          · simp only [resultState, hcalls2, hcalls1', List.append_assoc]
          · intro j hj
            simp only [List.map_append, List.mem_append, not_or] at hj
            simp only [resultState]
            rw [hcond2 j hj.2, hcond1' j hj.1]
        · rcases ho with ⟨pcf2, st3⟩
          rw [hh] at hcalls2 hcond2
          simp only [resultState] at hcalls2 hcond2
          rw [ebind_ok]
          refine ⟨added1 ++ added2, ?_, ?_⟩
          · simp only [resultState, hcalls2, hcalls1', List.append_assoc]
          · intro j hj
            simp only [List.map_append, List.mem_append, not_or] at hj
            simp only [resultState]
            rw [hcond2 j hj.2, hcond1' j hj.1]
      · simp only [if_true, ebind_err]
        refine ⟨added1, ?_, ?_⟩
        · simpa [resultState] using hcalls1'
        · intro j hj
          simpa [resultState] using hcond1' j hj
termination_by sizeOf c
decreasing_by all_goals (cases c with | mk k f p ch => simp [Cluster.children]; try omega)

theorem elimTraverseIPList_mut (elim : EliminateF) (cs : List Cluster)
    (d : EDataIP) (st : ElimState) :
    ∃ added : List ElimCall,
      (resultState (elimTraverseIPList elim cs d st)).calls = st.calls ++ added ∧
      ∀ j, j ∉ added.map ElimCall.cliqueIdx →
        (getNode (resultState (elimTraverseIPList elim cs d st)).heap j).conditional =
          (getNode st.heap j).conditional := by
  cases cs with
  | nil =>
    rw [elimTraverseIPList]
    exact ⟨[], by simp [resultState], fun j _ => by simp [resultState]⟩
  | cons c rest =>
    rw [elimTraverseIPList]
    obtain ⟨added1, hcalls1, hcond1⟩ := elimTraverseIP_mut elim c d st
    rcases hc : elimTraverseIP elim c d st with es | out
    · rcases es with ⟨e, stE⟩
      rw [hc] at hcalls1 hcond1
      simp only [resultState] at hcalls1 hcond1
      refine ⟨added1, ?_, ?_⟩
      · simpa [ebind_err, resultState] using hcalls1
      · intro j hj
        simpa [ebind_err, resultState] using hcond1 j hj
    · rcases out with ⟨d1, st1⟩
      rw [hc] at hcalls1 hcond1
      simp only [resultState] at hcalls1 hcond1
      rw [ebind_ok]
      obtain ⟨added2, hcalls2, hcond2⟩ := elimTraverseIPList_mut elim rest d1 st1
      refine ⟨added1 ++ added2, ?_, ?_⟩
      · rw [hcalls2, hcalls1, List.append_assoc]
      · intro j hj
        simp only [List.map_append, List.mem_append, not_or] at hj
        rw [hcond2 j hj.2, hcond1 j hj.1]
termination_by sizeOf cs
decreasing_by all_goals (simp; try omega)
end

/-!  Factor accounting over the reference call sequence: under the
freshness assumption that the elimination function never returns an input
factor as its remaining factor, the multiset of factors passed to the
elimination function over a subtree is exactly the multiset of factors
attached to its clusters, and contributions never alias an input factor. -/

mutual
theorem refCalls_count (elim : EliminateF) (f : GFactor)
    (Hf : ∀ gs ks rf, (elim gs ks).2 = some rf → rf ≠ f) (c : Cluster) :
    (((refCalls elim c).map Prod.fst).flatten.count f =
      (allClusterFactors c).count f) ∧
    clusterContrib elim c ≠ some f := by
  cases c with
  | mk ks fs ps ch =>
    obtain ⟨hcnt, hfm⟩ := refCallsList_count elim f Hf ch
    constructor
    · simp only [refCalls, allClusterFactors, List.map_append, List.map_cons,
        List.map_nil, List.flatten_append, List.count_append, hcnt]
      simp only [gatherFactors, List.flatten_cons, List.flatten_nil,
        List.append_nil, List.count_append, hfm]
      omega
    · simp only [clusterContrib]
      rcases hsome : (elim (gatherFactors fs (contribList elim ch)) ks).2 with _ | rf
      · simp [contribOfRem]
      · have hne := Hf _ _ _ hsome
        rcases hemp : rf.empty with _ | _ <;>
          simp [contribOfRem, hemp, hne]
termination_by sizeOf c
decreasing_by all_goals (cases c with | mk k fa p ch => simp [Cluster.children]; try omega)

theorem refCallsList_count (elim : EliminateF) (f : GFactor)
    (Hf : ∀ gs ks rf, (elim gs ks).2 = some rf → rf ≠ f) (cs : List Cluster) :
    (((refCallsList elim cs).map Prod.fst).flatten.count f =
      (allClusterFactorsList cs).count f) ∧
    ((contribList elim cs).filterMap id).count f = 0 := by
  cases cs with
  | nil => simp [refCallsList, allClusterFactorsList, contribList]
  | cons c rest =>
    obtain ⟨hcnt1, hne1⟩ := refCalls_count elim f Hf c
    obtain ⟨hcnt2, hfm2⟩ := refCallsList_count elim f Hf rest
    constructor
    · simp only [refCallsList, allClusterFactorsList, List.map_append,
        List.flatten_append, List.count_append, hcnt1, hcnt2]
    · simp only [contribList, List.filterMap_cons]
      rcases hco : clusterContrib elim c with _ | g
      · simpa using hfm2
      · have hgf : ¬ (g = f) := by
          intro hgf
          exact hne1 (by rw [hco, hgf])
        simp only [id, List.count_cons, hfm2]
        simp [hgf]
termination_by sizeOf cs
decreasing_by all_goals (simp; try omega)
end

/-!  Top-level in-place elimination lemmas. -/

theorem eliminateInPlace_error_orphan (elim : EliminateF)
    (Ht : ∀ gs ks, ((elim gs ks).2).isSome = true)
    (t : ClusterTree) (heap0 : Heap) (btRoots : List Nat)
    (horph : hasOrphanClusterList t.roots = true) :
    ∃ stE : ElimState,
      t.eliminateInPlace elim heap0 btRoots = .error (.orphanInPlace, stE) ∧
      (∀ j, j ∉ stE.calls.map ElimCall.cliqueIdx → j < heap0.length →
        (getNode stE.heap j).conditional = (getNode heap0 j).conditional) := by
  obtain ⟨stE, hlist⟩ :=
    (elimTraverseIPList_total elim Ht t.roots
      { hasParentData := false, myIndexInParent := 0, childFactors := [],
        bayesTreeNode := heap0.length }
      { heap := heap0 ++ [{ children := btRoots }], nodesIndex := [],
        calls := [] }).2 horph
  obtain ⟨added, hcalls, hcond⟩ :=
    elimTraverseIPList_mut elim t.roots
      { hasParentData := false, myIndexInParent := 0, childFactors := [],
        bayesTreeNode := heap0.length }
      { heap := heap0 ++ [{ children := btRoots }], nodesIndex := [],
        calls := [] }
  rw [hlist] at hcalls hcond
  simp only [resultState] at hcalls hcond
  have hcalls' : stE.calls = added := by simpa using hcalls
  refine ⟨stE, ?_, ?_⟩
  · rw [ClusterTree.eliminateInPlace]
    simp only [hlist, ebind_err]
  · intro j hj hjlt
    rw [hcond j (by rw [hcalls'] at hj; exact hj), getNode_append_lt _ _ _ hjlt]

theorem eliminateInPlace_ok_of_orphanFree (elim : EliminateF)
    (Ht : ∀ gs ks, ((elim gs ks).2).isSome = true)
    (t : ClusterTree) (heap0 : Heap) (btRoots : List Nat)
    (hno : hasOrphanClusterList t.roots = false) :
    ∃ out, t.eliminateInPlace elim heap0 btRoots = .ok out := by
  obtain ⟨d1, st1, hlist⟩ :=
    (elimTraverseIPList_total elim Ht t.roots
      { hasParentData := false, myIndexInParent := 0, childFactors := [],
        bayesTreeNode := heap0.length }
      { heap := heap0 ++ [{ children := btRoots }], nodesIndex := [],
        calls := [] }).1 hno
  rw [ClusterTree.eliminateInPlace]
  simp only [hlist, ebind_ok]
  exact ⟨_, rfl⟩

/-!  The stream interleaver: every interleaving is a permutation of the
concatenated streams, and each input stream survives as a subsequence. -/

theorem flatten_perm_extract {α : Type} (ls : List (List α)) (i : Nat)
    (x : α) (xs : List α) (hg : ls.get? i = some (x :: xs)) :
    List.Perm ls.flatten (x :: (ls.set i xs).flatten) := by
  induction ls generalizing i with
  | nil => simp at hg
  | cons l0 rest ih =>
    cases i with
    | zero =>
      simp only [List.get?] at hg
      injection hg with hg
      subst hg
      simp only [List.set, List.flatten_cons, List.cons_append]
      exact List.Perm.refl _
    | succ j =>
      simp only [List.get?] at hg
      have hperm := ih j hg
      simp only [List.set, List.flatten_cons]
      exact (List.Perm.append_left l0 hperm).trans List.perm_middle

theorem mergeStreams_perm {α : Type} (is : List Nat) (ls : List (List α)) :
    List.Perm (mergeStreams is ls) ls.flatten := by
  induction is generalizing ls with
  | nil => rw [mergeStreams]
  | cons i rest ih =>
    rcases hg : ls.get? i with _ | l
    · simp only [mergeStreams, hg]
      exact ih ls
    · cases l with
      | nil =>
        simp only [mergeStreams, hg]
        exact ih ls
      | cons x xs =>
        simp only [mergeStreams, hg]
        exact (List.Perm.cons x (ih (ls.set i xs))).trans
          (flatten_perm_extract ls i x xs hg).symm

theorem mem_set_or_eq {α : Type} (ls : List α) (i : Nat) (a b : α) (l : α)
    (hl : l ∈ ls) (hg : ls.get? i = some a) : l ∈ ls.set i b ∨ l = a := by
  induction ls generalizing i with
  | nil => simp at hl
  | cons l0 rest ih =>
    cases i with
    | zero =>
      simp only [List.get?] at hg
      injection hg with hg
      rcases List.mem_cons.1 hl with rfl | hl'
      · right; exact hg
      · left; simp [List.set, hl']
    | succ j =>
      simp only [List.get?] at hg
      rcases List.mem_cons.1 hl with rfl | hl'
      · left; simp [List.set]
      · rcases ih j hl' hg with h | h
        · left; simp [List.set, h]
        · right; exact h

theorem sublist_flatten_of_mem {α : Type} (ls : List (List α)) (l : List α)
    (hl : l ∈ ls) : List.Sublist l ls.flatten := by
  induction ls with
  | nil => simp at hl
  | cons l0 rest ih =>
    rcases List.mem_cons.1 hl with rfl | hl'
    · simp only [List.flatten_cons]
      exact List.sublist_append_left l rest.flatten
    · exact (ih hl').trans (by
        simp only [List.flatten_cons]
        exact List.sublist_append_right l0 rest.flatten)

theorem sublist_mergeStreams_of_mem {α : Type} (is : List Nat)
    (ls : List (List α)) :
    ∀ l ∈ ls, List.Sublist l (mergeStreams is ls) := by
  induction is generalizing ls with
  | nil =>
    intro l hl
    rw [mergeStreams]
    exact sublist_flatten_of_mem ls l hl
  | cons i rest ih =>
    intro l hl
    rcases hg : ls.get? i with _ | g
    · simp only [mergeStreams, hg]
      exact ih ls l hl
    · cases g with
      | nil =>
        simp only [mergeStreams, hg]
        exact ih ls l hl
      | cons x xs =>
        simp only [mergeStreams, hg]
        rcases mem_set_or_eq ls i (x :: xs) xs l hl hg with h | h
        · exact (ih (ls.set i xs) l h).cons x
        · subst h
          refine List.Sublist.cons₂ x (ih (ls.set i xs) xs ?_)
          have hi : i < ls.length := (List.get?_eq_some.1 hg).1
          have hi' : i < (ls.set i xs).length := by simpa using hi
          have hx : (ls.set i xs).get ⟨i, hi'⟩ = xs := by
            simp [List.getElem_set_self]
          have hmem := (ls.set i xs).get_mem i hi'
          rw [hx] at hmem
          exact hmem

/-!  Shape of the post-order event sequences: every event of the subtree at
path `p` extends `p`, the events are pairwise distinct, and the node's own
event is present. -/

mutual
theorem postEvents_shape (sched : List Nat → List Nat) (c : Cluster)
    (p : List Nat) :
    (∀ q ∈ postEvents sched c p, q = p ∨ ∃ k r, q = p ++ k :: r) ∧
    (postEvents sched c p).Nodup ∧
    p ∈ postEvents sched c p := by
  cases c with
  | mk ks fs ps ch =>
    obtain ⟨hL1, hL2⟩ := postEventsList_shape sched ch p 0
    rw [postEvents]
    have hperm := mergeStreams_perm (sched p) (postEventsList sched ch p 0)
    refine ⟨?_, ?_, ?_⟩
    · intro q hq
      rcases List.mem_append.1 hq with hin | hp
      · obtain ⟨k, r, _, hq'⟩ := hL1 q (hperm.subset hin)
        exact Or.inr ⟨k, r, hq'⟩
      · exact Or.inl (by simpa using hp)
    · refine List.Nodup.append (hperm.nodup_iff.2 hL2) (List.nodup_singleton p) ?_
      intro q hq hq'
      have hq'' : q = p := by simpa using hq'
      subst hq''
      obtain ⟨k, r, _, habs⟩ := hL1 q (hperm.subset hq)
      have := congrArg List.length habs
      simp at this
    · exact List.mem_append.2 (Or.inr (by simp))
termination_by sizeOf c
decreasing_by all_goals (cases c with | mk k f pz ch => simp [Cluster.children]; try omega)

theorem postEventsList_shape (sched : List Nat → List Nat) (cs : List Cluster)
    (p : List Nat) (i : Nat) :
    (∀ q ∈ (postEventsList sched cs p i).flatten, ∃ k r, i ≤ k ∧ q = p ++ k :: r) ∧
    (postEventsList sched cs p i).flatten.Nodup := by
  cases cs with
  | nil =>
    constructor
    · intro q hq
      simp [postEventsList] at hq
    · simp [postEventsList]
  | cons c rest =>
    obtain ⟨hN1, hN2, _⟩ := postEvents_shape sched c (p ++ [i])
    obtain ⟨hL1, hL2⟩ := postEventsList_shape sched rest p (i + 1)
    rw [postEventsList]
    constructor
    · intro q hq
      simp only [List.flatten_cons] at hq
      rcases List.mem_append.1 hq with h | h
      · rcases hN1 q h with rfl | ⟨k, r, hq'⟩
        · exact ⟨i, [], le_refl i, by simp⟩
        · exact ⟨i, k :: r, le_refl i, by simpa [List.append_assoc] using hq'⟩
      · obtain ⟨k, r, hk, hq'⟩ := hL1 q h
        exact ⟨k, r, by omega, hq'⟩
    · simp only [List.flatten_cons]
      refine List.Nodup.append hN2 hL2 ?_
      intro q hq hq'
      obtain ⟨k, r, hk, h2⟩ := hL1 q hq'
      rcases hN1 q hq with rfl | ⟨k', r', h1⟩
      · have h2' : p ++ [i] = p ++ k :: r := h2
        have h3 := List.append_cancel_left h2'
        injection h3 with h4 _
        omega
      · rw [h1] at h2
        have h2' : p ++ (i :: (k' :: r')) = p ++ k :: r := by
          simpa [List.append_assoc] using h2
        have h3 := List.append_cancel_left h2'
        injection h3 with h4 _
        omega
termination_by sizeOf cs
decreasing_by all_goals (simp; try omega)
end

/-!  Index-order bookkeeping for event sequences. -/

theorem eventIndex_append_left (l l2 : List (List Nat)) (q : List Nat)
    (hq : q ∈ l) : eventIndex (l ++ l2) q = eventIndex l q := by
  induction l with
  | nil => simp at hq
  | cons e es ih =>
    by_cases he : e = q
    · simp [eventIndex, he]
    · have hq' : q ∈ es := by
        rcases List.mem_cons.1 hq with rfl | h
        · exact absurd rfl he
        · exact h
      simp [eventIndex, he, ih hq']

theorem eventIndex_concat_self (l : List (List Nat)) (q : List Nat)
    (hq : q ∉ l) : eventIndex (l ++ [q]) q = l.length := by
  induction l with
  | nil => simp [eventIndex]
  | cons e es ih =>
    have he : ¬ (e = q) := by
      intro h
      exact hq (h ▸ List.mem_cons_self e es)
    simp [eventIndex, he, ih (fun h => hq (List.mem_cons_of_mem e h))]

theorem eventIndex_lt_length (l : List (List Nat)) (q : List Nat)
    (hq : q ∈ l) : eventIndex l q < l.length := by
  induction l with
  | nil => simp at hq
  | cons e es ih =>
    by_cases he : e = q
    · simp [eventIndex, he]
    · have hq' : q ∈ es := by
        rcases List.mem_cons.1 hq with rfl | h
        · exact absurd rfl he
        · exact h
      simp only [eventIndex, he, if_false, List.length_cons]
      have := ih hq'
      omega

theorem eventIndex_lt_of_sublist {l m : List (List Nat)}
    (hs : List.Sublist l m) (hm : m.Nodup) {a b : List Nat}
    (ha : a ∈ l) (hb : b ∈ l) (hab : eventIndex l a < eventIndex l b) :
    eventIndex m a < eventIndex m b := by
  revert hm ha hb hab
  induction hs with
  | slnil =>
    intro hm ha hb hab
    simp at ha
  | cons e hs ih =>
    intro hm ha hb hab
    have hm2 := List.nodup_cons.1 hm
    have hae : ¬ (e = a) := fun h => hm2.1 (h ▸ hs.subset ha)
    have hbe : ¬ (e = b) := fun h => hm2.1 (h ▸ hs.subset hb)
    have hrec := ih hm2.2 ha hb hab
    simp only [eventIndex, hae, hbe, if_false]
    omega
  | cons₂ e hs ih =>
    intro hm ha hb hab
    have hm2 := List.nodup_cons.1 hm
    by_cases hea : e = a
    · subst hea
      by_cases heb : e = b
      · subst heb
        exact absurd hab (lt_irrefl _)
      · simp [eventIndex, heb]
    · by_cases heb : e = b
      · subst heb
        simp [eventIndex, hea] at hab
      · rcases List.mem_cons.1 ha with rfl | ha'
        · exact absurd rfl hea
        rcases List.mem_cons.1 hb with rfl | hb'
        · exact absurd rfl heb
        simp only [eventIndex, hea, heb, if_false] at hab ⊢
        have hrec := ih hm2.2 ha' hb' (by omega)
        omega

theorem postEventsList_get_stream (sched : List Nat → List Nat) :
    ∀ (cs : List Cluster) (p : List Nat) (i k : Nat) (c : Cluster),
    cs.get? k = some c →
    (postEventsList sched cs p i).get? k =
      some (postEvents sched c (p ++ [i + k])) := by
  intro cs
  induction cs with
  | nil =>
    intro p i k c h
    simp at h
  | cons c0 rest ih =>
    intro p i k c h
    cases k with
    | zero =>
      simp only [List.get?] at h
      injection h with h
      subst h
      rw [postEventsList]
      simp
    | succ k' =>
      simp only [List.get?] at h
      rw [postEventsList]
      simp only [List.get?]
      have hres := ih p (i + 1) k' c h
      rw [show i + 1 + k' = i + (k' + 1) from by omega] at hres
      exact hres

theorem not_mem_merged (sched : List Nat → List Nat) (ch : List Cluster)
    (p : List Nat) :
    p ∉ mergeStreams (sched p) (postEventsList sched ch p 0) := by
  intro hmem
  have hperm := mergeStreams_perm (sched p) (postEventsList sched ch p 0)
  obtain ⟨k, r, _, habs⟩ :=
    (postEventsList_shape sched ch p 0).1 p (hperm.subset hmem)
  have := congrArg List.length habs
  simp at this

/-- C8: during the parallel forest traversal, for every node of the tree
(`sub`, reached by child-position path `q`) and every child `i` of that
node, the child's post-order event occurs strictly before the node's own
post-order event in the traversal's event sequence, for every schedule of
sibling-subtree interleavings (modelled from the spec: the traversal driver
`treeTraversal::DepthFirstForestParallel` is not under `src/`; `postEvents`
realises its join-barrier semantics, a schedule arbitrarily interleaving
sibling event streams inside each parallel region, and a post-order step
publishes its contributed factor as it completes). -/
theorem c8_parent_post_after_children (sched : List Nat → List Nat)
    (c : Cluster) (p q : List Nat) (sub : Cluster) (i : Nat)
    (hsub : subtreeAt c q = some sub) (hi : i < sub.children.length) :
    ((p ++ q) ++ [i]) ∈ postEvents sched c p ∧
    (p ++ q) ∈ postEvents sched c p ∧
    eventIndex (postEvents sched c p) ((p ++ q) ++ [i]) <
      eventIndex (postEvents sched c p) (p ++ q) := by
  revert hsub
  induction q generalizing c p with
  | nil =>
    intro hsub
    simp only [subtreeAt] at hsub
    injection hsub with hsub
    subst hsub
    cases c with
    | mk ks fs ps ch =>
      simp only [Cluster.children] at hi
      have hget : ch.get? i = some (ch.get ⟨i, hi⟩) := List.get?_eq_get hi
      have hstream := postEventsList_get_stream sched ch p 0 i _ hget
      rw [Nat.zero_add] at hstream
      have hstreamMem : postEvents sched (ch.get ⟨i, hi⟩) (p ++ [i]) ∈
          postEventsList sched ch p 0 := List.get?_mem hstream
      have hown := (postEvents_shape sched (ch.get ⟨i, hi⟩) (p ++ [i])).2.2
      have hSub := sublist_mergeStreams_of_mem (sched p)
        (postEventsList sched ch p 0) _ hstreamMem
      have hmemMerged : p ++ [i] ∈
          mergeStreams (sched p) (postEventsList sched ch p 0) :=
        hSub.subset hown
      have hnot := not_mem_merged sched ch p
      rw [postEvents]
      simp only [List.append_nil]
      refine ⟨List.mem_append.2 (Or.inl hmemMerged),
        List.mem_append.2 (Or.inr (by simp)), ?_⟩
      rw [eventIndex_append_left _ _ _ hmemMerged, eventIndex_concat_self _ _ hnot]
      exact eventIndex_lt_length _ _ hmemMerged
  | cons k q' ih =>
    intro hsub
    cases c with
    | mk ks fs ps ch =>
      rcases hk : ch.get? k with _ | ck
      · rw [subtreeAt] at hsub
        simp only [Cluster.children] at hsub
        rw [hk] at hsub
        simp at hsub
      · rw [subtreeAt] at hsub
        simp only [Cluster.children] at hsub
        rw [hk] at hsub
        simp only [Option.some_bind] at hsub
        have IH := ih ck (p ++ [k]) hsub
        have hstream := postEventsList_get_stream sched ch p 0 k ck hk
        rw [Nat.zero_add] at hstream
        have hstreamMem := List.get?_mem hstream
        have hSubM := sublist_mergeStreams_of_mem (sched p)
          (postEventsList sched ch p 0) _ hstreamMem
        have hSubE : List.Sublist (postEvents sched ck (p ++ [k]))
            (mergeStreams (sched p) (postEventsList sched ch p 0) ++ [p]) :=
          hSubM.trans (List.sublist_append_left _ _)
        have hnd := (postEvents_shape sched (.mk ks fs ps ch) p).2.1
        rw [postEvents] at hnd
        rw [postEvents]
        have hpath : (p ++ [k]) ++ q' = p ++ k :: q' := by simp
        obtain ⟨m1, m2, hlt⟩ := IH
        rw [hpath] at m1 m2 hlt
        refine ⟨hSubE.subset m1, hSubE.subset m2, ?_⟩
        exact eventIndex_lt_of_sublist hSubE hnd m1 m2 hlt

/-!  Small helpers for the claim theorems. -/

theorem rootIdxs_length (s : Nat) (cs : List Cluster) :
    (rootIdxs s cs).length = cs.length := by
  induction cs generalizing s with
  | nil => rfl
  | cons c rest ih => simp [rootIdxs, ih]

theorem contribList_get (elim : EliminateF) :
    ∀ (cs : List Cluster) (i : Nat) (c : Cluster), cs.get? i = some c →
    (contribList elim cs).get? i = some (clusterContrib elim c) := by
  intro cs
  induction cs with
  | nil => intro i c h; simp at h
  | cons c0 rest ih =>
    intro i c h
    cases i with
    | zero =>
      simp only [List.get?] at h
      injection h with h
      subst h
      rw [contribList]
      rfl
    | succ j =>
      simp only [List.get?] at h
      rw [contribList]
      simpa using ih j c h

theorem eliminationPostOrderVisitor_ok (elim : EliminateF) (node : Cluster)
    (myData : EData) (pcf : List (Option GFactor)) (st : ElimState)
    (rf : GFactor)
    (hrem : (elim (gatherFactors node.factors myData.childFactors) node.keys).2 =
      some rf) :
    eliminationPostOrderVisitor elim node myData pcf st = .ok
      ((if rf.empty then pcf else pcf.set myData.myIndexInParent (some rf)),
       { heap := attachOrphans
            (modifyNode st.heap myData.bayesTreeNode
              (fun n => { n with
                conditional := some (elim (gatherFactors node.factors myData.childFactors) node.keys).1 }))
            myData.bayesTreeNode node.factors,
         nodesIndex := st.nodesIndex ++
            (storedFrontals
              (attachOrphans
                (modifyNode st.heap myData.bayesTreeNode
                  (fun n => { n with
                    conditional := some (elim (gatherFactors node.factors myData.childFactors) node.keys).1 }))
                myData.bayesTreeNode node.factors)
              myData.bayesTreeNode).map (fun j => (j, myData.bayesTreeNode)),
         calls := st.calls ++
            [⟨myData.bayesTreeNode, gatherFactors node.factors myData.childFactors,
              node.keys⟩] }) := by
  simp only [eliminationPostOrderVisitor, eliminationPostOrderVisitorHelper, hrem]
  rcases hemp : rf.empty with _ | _
  · simp only [hemp, Bool.false_eq_true, if_false, ebind_ok]
  · simp only [hemp, if_true, ebind_ok]

/-!  Claim theorems. -/

/-- C1: for every cluster forest and elimination function (total on the
remaining-factor side), `ClusterTree.eliminate` constructs the synthetic
dummy-root context, runs the traversal, and returns as its second result
the forest's externally supplied remaining factors merged with the non-null
accumulated child-factor slots of the dummy root (`contribList` is the
dummy root's accumulated slot list, `filterMap id` keeps the non-null
ones), and as its first result the tree whose roots are exactly the
children of the dummy root's synthetic clique (arena index
`heap0.length`); those children are exactly one fresh clique per real root,
in order. -/
theorem c1_eliminate_entry (elim : EliminateF)
    (Ht : ∀ gs ks, ((elim gs ks).2).isSome = true)
    (t : ClusterTree) (heap0 : Heap) :
    ∃ st' : ElimState,
      t.eliminate elim heap0 =
        .ok ((getNode st'.heap heap0.length).children,
             t.remainingFactors ++ (contribList elim t.roots).filterMap id, st') ∧
      (getNode st'.heap heap0.length).children =
        rootIdxs (heap0.length + 1) t.roots ∧
      (getNode st'.heap heap0.length).children.length = t.roots.length := by
  obtain ⟨st', heq, _, _, hdummy⟩ := eliminate_spec elim Ht t heap0
  refine ⟨st', ?_, hdummy, ?_⟩
  · rw [heq, hdummy]
  · rw [hdummy, rootIdxs_length]

/-- C2: factor conservation.  For every input factor `f` (attached to a
cluster or in the forest's remaining-factors list) that the elimination
function never produces as a remaining factor, the number of occurrences of
`f` among the factor sets consumed by elimination-function invocations plus
its occurrences in the returned uneliminated-factor collection equals its
occurrences among the inputs: none dropped, none duplicated (in particular
an input factor occurring once appears exactly once among the outputs). -/
theorem c2_factor_conservation (elim : EliminateF)
    (Ht : ∀ gs ks, ((elim gs ks).2).isSome = true)
    (t : ClusterTree) (heap0 : Heap) (f : GFactor)
    (Hf : ∀ gs ks rf, (elim gs ks).2 = some rf → rf ≠ f) :
    ∃ (rts : List Nat) (rem : List GFactor) (st' : ElimState),
      t.eliminate elim heap0 = .ok (rts, rem, st') ∧
      (st'.calls.map ElimCall.factors).flatten.count f + rem.count f =
        (allClusterFactorsList t.roots).count f + t.remainingFactors.count f := by
  obtain ⟨st', heq, hargs, _, _⟩ := eliminate_spec elim Ht t heap0
  refine ⟨_, _, st', heq, ?_⟩
  have hfac : st'.calls.map ElimCall.factors =
      (refCallsList elim t.roots).map Prod.fst := by
    rw [← hargs, List.map_map]
    rfl
  obtain ⟨hcnt, hfm⟩ := refCallsList_count elim f Hf t.roots
  rw [hfac, hcnt, List.count_append, hfm]
  omega

/-- C3: for every node of the cluster forest, the post-order step invokes
the elimination function with exactly the node's own factors combined with
every non-null factor contributed by its children, using the node's keys in
their stored order as the elimination order, and stores the returned
conditional into that node's clique.  The invocation log of a run equals
the reference call sequence `refCallsList`, whose entry for a node is
spelled out by the last conjunct, and every logged invocation has its
conditional stored at its clique. -/
theorem c3_post_order_step (elim : EliminateF)
    (Ht : ∀ gs ks, ((elim gs ks).2).isSome = true)
    (t : ClusterTree) (heap0 : Heap) :
    ∃ (rts : List Nat) (rem : List GFactor) (st' : ElimState),
      t.eliminate elim heap0 = .ok (rts, rem, st') ∧
      st'.calls.map ElimCall.args = refCallsList elim t.roots ∧
      (∀ e ∈ st'.calls, (getNode st'.heap e.cliqueIdx).conditional =
        some (elim e.factors e.order).1) ∧
      (∀ c2 : Cluster, refCalls elim c2 =
        refCallsList elim c2.children ++
          [(c2.factors ++ (contribList elim c2.children).filterMap id, c2.keys)]) := by
  obtain ⟨st', heq, hargs, hstore, _⟩ := eliminate_spec elim Ht t heap0
  refine ⟨_, _, st', heq, hargs, hstore, ?_⟩
  intro c2
  cases c2 with
  | mk ks fs ps ch =>
    rw [refCalls]
    simp [gatherFactors, Cluster.factors, Cluster.keys, Cluster.children]

/-- C4: the remaining factor returned by the elimination function, when
non-empty, is stored into the parent's reserved child-factor slot at this
node's index (the slot otherwise stays as it was, i.e. null); and for a
root node, whose parent is the dummy container, a non-empty remaining
factor (its contribution `clusterContrib`) ends up in the forest-level
uneliminated-factor output of `eliminate`. -/
theorem c4_remaining_factor_slot (elim : EliminateF) (node : Cluster)
    (myIdx myIip : Nat) (cf pcf : List (Option GFactor)) (st : ElimState)
    (rf : GFactor)
    (hrem : (elim (gatherFactors node.factors cf) node.keys).2 = some rf) :
    (rf.empty = false →
      ∃ st1, eliminationPostOrderVisitorHelper elim node myIdx myIip cf pcf st =
        .ok (pcf.set myIip (some rf), st1)) ∧
    (rf.empty = true →
      ∃ st1, eliminationPostOrderVisitorHelper elim node myIdx myIip cf pcf st =
        .ok (pcf, st1)) ∧
    (∀ (_ : ∀ gs ks, ((elim gs ks).2).isSome = true) (t : ClusterTree)
        (heap0 : Heap) (i : Nat) (hi : i < t.roots.length) (rfi : GFactor),
      clusterContrib elim (t.roots.get ⟨i, hi⟩) = some rfi →
      ∃ (rts : List Nat) (rem : List GFactor) (st' : ElimState),
        t.eliminate elim heap0 = .ok (rts, rem, st') ∧ rfi ∈ rem) := by
  refine ⟨?_, ?_, ?_⟩
  · intro hemp
    simp only [eliminationPostOrderVisitorHelper, hrem, hemp, Bool.false_eq_true,
      if_false]
    exact ⟨_, rfl⟩
  · intro hemp
    simp only [eliminationPostOrderVisitorHelper, hrem, hemp, if_true]
    exact ⟨_, rfl⟩
  · intro Ht t heap0 i hi rfi hco
    obtain ⟨st', heq, _, _, _⟩ := eliminate_spec elim Ht t heap0
    refine ⟨_, _, st', heq, ?_⟩
    have hget : t.roots.get? i = some (t.roots.get ⟨i, hi⟩) := List.get?_eq_get hi
    have hcl := contribList_get elim t.roots i _ hget
    rw [hco] at hcl
    refine List.mem_append.2 (Or.inr ?_)
    exact List.mem_filterMap.2 ⟨some rfi, List.get?_mem hcl, rfl⟩

/-- C5: a cluster whose own factor list contains an orphan-subtree wrapper
makes update-in-place fail with the configuration-precondition error: the
in-place post-order visitor, run on any such cluster, raises
`RuntimeErrorThreadsafe` (`ElimErr.orphanInPlace`) with the state exactly
as it was — the elimination function is not invoked for that cluster and no
elimination result is stored (no partial mutation of its clique); and a
forest containing such a cluster makes `eliminateInPlace` surface that
error, every clique outside the logged invocations keeping its stored
conditional. -/
theorem c5_inplace_orphan (elim : EliminateF)
    (Ht : ∀ gs ks, ((elim gs ks).2).isSome = true)
    (t : ClusterTree) (heap0 : Heap) (btRoots : List Nat)
    (horph : hasOrphanClusterList t.roots = true) :
    (∀ (node : Cluster) (myData : EDataIP) (pcf : List (Option GFactor))
        (st : ElimState),
      node.factors.any GFactor.isOrphan = true →
      eliminationPostOrderVisitorInPlace elim node myData pcf st =
        .error (.orphanInPlace, st)) ∧
    ∃ stE : ElimState,
      t.eliminateInPlace elim heap0 btRoots = .error (.orphanInPlace, stE) ∧
      (∀ j, j ∉ stE.calls.map ElimCall.cliqueIdx → j < heap0.length →
        (getNode stE.heap j).conditional = (getNode heap0 j).conditional) := by
  constructor
  · intro node myData pcf st hany
    simp only [eliminationPostOrderVisitorInPlace, hany, if_true]
  · exact eliminateInPlace_error_orphan elim Ht t heap0 btRoots horph

/-- C6: the allocating elimination context constructor, given a parent
context, grows the parent's child-factor slot list by exactly one empty
(null) slot and records this node's index into it; and when the parent is
not the synthetic dummy root (`parent.hasParentData = true`), it links the
new clique's parent pointer to the parent's clique and appends the new
clique to the parent clique's children.  All of this happens inside the
constructor, which the traversal (`elimTraverse`) runs in its pre-order
step, before either node's post-order elimination step. -/
theorem c6_allocating_context (parent : EData) (h : Heap)
    (hq : parent.bayesTreeNode < h.length) :
    (mkEliminationData parent h).2.1.childFactors =
      parent.childFactors ++ [none] ∧
    (mkEliminationData parent h).1.myIndexInParent =
      parent.childFactors.length ∧
    (mkEliminationData parent h).1.bayesTreeNode = h.length ∧
    (parent.hasParentData = true →
      (getNode (mkEliminationData parent h).2.2 h.length).parent_ =
        some parent.bayesTreeNode ∧
      (getNode (mkEliminationData parent h).2.2 parent.bayesTreeNode).children =
        (getNode h parent.bayesTreeNode).children ++ [h.length]) := by
  refine ⟨rfl, rfl, rfl, ?_⟩
  intro hpd
  simp only [mkEliminationData, hpd, if_true]
  constructor
  · rw [parent_pushChild, parent_setParentPtr_self _ _ _ (by simp)]
  · have hqlen : parent.bayesTreeNode <
        (setParentPtr (h ++ [newBTNode]) h.length parent.bayesTreeNode).length := by
      rw [length_setParentPtr]
      simp
      omega
    rw [children_pushChild_self _ _ _ hqlen, children_setParentPtr,
      getNode_append_lt _ _ _ hq]

/-- C7: the fresh-build post-order visitor scans only the cluster's own
factor list for orphan-subtree wrappers — the appended children
`orphanIndices node.factors` depend only on the node's own factors, while
the factors received from children (`myData.childFactors`) are universally
quantified here — and for each orphan wrapper found, the wrapped clique is
appended as a child of the new clique (in scan order) and the orphan
clique's parent pointer is set to the new clique. -/
theorem c7_orphan_reattach (elim : EliminateF) (node : Cluster)
    (myData : EData) (pcf : List (Option GFactor)) (st : ElimState)
    (rf : GFactor)
    (hrem : (elim (gatherFactors node.factors myData.childFactors) node.keys).2 =
      some rf)
    (hidx : myData.bayesTreeNode < st.heap.length) :
    ∃ (pcf' : List (Option GFactor)) (st' : ElimState),
      eliminationPostOrderVisitor elim node myData pcf st = .ok (pcf', st') ∧
      (getNode st'.heap myData.bayesTreeNode).children =
        (getNode st.heap myData.bayesTreeNode).children ++
          orphanIndices node.factors ∧
      (∀ o ∈ orphanIndices node.factors, o < st.heap.length →
        (getNode st'.heap o).parent_ = some myData.bayesTreeNode) := by
  refine ⟨_, _, eliminationPostOrderVisitor_ok elim node myData pcf st rf hrem,
    ?_, ?_⟩
  · rw [children_attachOrphans_self _ _ _ (by rw [modifyNode_length]; exact hidx),
      children_modifyCond]
  · intro o ho holt
    exact parent_attachOrphans_mem _ _ _ o ho (by rw [modifyNode_length]; exact holt)

/-- C9: the shared post-order helper dereferences the remaining-factor
pointer returned by the elimination function without a null check — for any
elimination function returning a null remaining factor the helper faults
(`ElimErr.nullRemainingFactor`) — so `eliminate` and `eliminateInPlace`
carry the unchecked precondition that the elimination function always
returns a non-null (possibly empty) remaining factor; under that
precondition (`Ht`) the dereference never fails: `eliminate` succeeds and
`eliminateInPlace` can only fail with the orphan configuration error. -/
theorem c9_null_remaining_precondition (elim : EliminateF)
    (Ht : ∀ gs ks, ((elim gs ks).2).isSome = true)
    (t : ClusterTree) (heap0 : Heap) (btRoots : List Nat) :
    (∀ (elim2 : EliminateF) (node : Cluster) (myIdx myIip : Nat)
        (cf pcf : List (Option GFactor)) (st : ElimState),
      (elim2 (gatherFactors node.factors cf) node.keys).2 = none →
      ∃ stE, eliminationPostOrderVisitorHelper elim2 node myIdx myIip cf pcf st =
        .error (.nullRemainingFactor, stE)) ∧
    (∃ out, t.eliminate elim heap0 = .ok out) ∧
    (∀ e stE, t.eliminateInPlace elim heap0 btRoots = .error (e, stE) →
      e = .orphanInPlace) := by
  refine ⟨?_, ?_, ?_⟩
  · intro elim2 node myIdx myIip cf pcf st hnone
    simp only [eliminationPostOrderVisitorHelper, hnone]
    exact ⟨_, rfl⟩
  · obtain ⟨st', heq, _, _, _⟩ := eliminate_spec elim Ht t heap0
    exact ⟨_, heq⟩
  · intro e stE h
    rcases horph : hasOrphanClusterList t.roots with _ | _
    · obtain ⟨out, hok⟩ :=
        eliminateInPlace_ok_of_orphanFree elim Ht t heap0 btRoots horph
      rw [hok] at h
      cases h
    · obtain ⟨stE', herr, _⟩ :=
        eliminateInPlace_error_orphan elim Ht t heap0 btRoots horph
      rw [herr] at h
      injection h with h1
      injection h1 with h2 _
      exact h2.symm

/-- C10: in fresh-build elimination, orphan-subtree wrapper factors
attached to a cluster are not filtered out of the elimination input: the
single invocation logged for the node passes exactly the gathered set
`gatherFactors node.factors myData.childFactors`, which contains every
orphan wrapper among the cluster's own factors; and each such orphan is in
addition re-attached afterwards as a child of the new clique. -/
theorem c10_orphans_in_gathered (elim : EliminateF) (node : Cluster)
    (myData : EData) (pcf : List (Option GFactor)) (st : ElimState)
    (rf : GFactor)
    (hrem : (elim (gatherFactors node.factors myData.childFactors) node.keys).2 =
      some rf)
    (hidx : myData.bayesTreeNode < st.heap.length) :
    ∃ (pcf' : List (Option GFactor)) (st' : ElimState),
      eliminationPostOrderVisitor elim node myData pcf st = .ok (pcf', st') ∧
      st'.calls = st.calls ++
        [⟨myData.bayesTreeNode, gatherFactors node.factors myData.childFactors,
          node.keys⟩] ∧
      (∀ o, GFactor.orphan o ∈ node.factors →
        GFactor.orphan o ∈ gatherFactors node.factors myData.childFactors ∧
        o ∈ (getNode st'.heap myData.bayesTreeNode).children) := by
  refine ⟨_, _, eliminationPostOrderVisitor_ok elim node myData pcf st rf hrem,
    rfl, ?_⟩
  intro o ho
  constructor
  · exact List.mem_append.2 (Or.inl ho)
  · rw [children_attachOrphans_self _ _ _ (by rw [modifyNode_length]; exact hidx),
      children_modifyCond]
    refine List.mem_append.2 (Or.inr ?_)
    exact List.mem_filterMap.2 ⟨GFactor.orphan o, ho, rfl⟩

/-!  Witnesses: each claim theorem applied at a concrete input, with every
hypothesis discharged there. -/

theorem c1_witness :
    (∀ gs ks, ((((fun _ ks => ((⟨ks⟩ : Conditional),
        some (GFactor.ordinary 100 ks))) : EliminateF) gs ks).2).isSome = true) ∧
    ∃ st' : ElimState,
      ClusterTree.eliminate
          ⟨[Cluster.mk [0] [GFactor.ordinary 1 [0]] 1 []], [GFactor.ordinary 2 [5]]⟩
          (fun _ ks => (⟨ks⟩, some (GFactor.ordinary 100 ks))) [] =
        .ok ((getNode st'.heap 0).children,
             [GFactor.ordinary 2 [5]] ++
               (contribList (fun _ ks => (⟨ks⟩, some (GFactor.ordinary 100 ks)))
                 [Cluster.mk [0] [GFactor.ordinary 1 [0]] 1 []]).filterMap id, st') ∧
      (getNode st'.heap 0).children =
        rootIdxs 1 [Cluster.mk [0] [GFactor.ordinary 1 [0]] 1 []] ∧
      (getNode st'.heap 0).children.length = 1 :=
  ⟨fun _ _ => rfl,
   c1_eliminate_entry (fun _ ks => (⟨ks⟩, some (GFactor.ordinary 100 ks)))
     (fun _ _ => rfl)
     ⟨[Cluster.mk [0] [GFactor.ordinary 1 [0]] 1 []], [GFactor.ordinary 2 [5]]⟩ []⟩

theorem c2_witness :
    (∀ gs ks rf, (((fun _ ks => ((⟨ks⟩ : Conditional),
        some (GFactor.ordinary 100 ks))) : EliminateF) gs ks).2 = some rf →
        rf ≠ GFactor.ordinary 1 [0]) ∧
    ∃ (rts : List Nat) (rem : List GFactor) (st' : ElimState),
      ClusterTree.eliminate
          ⟨[Cluster.mk [0] [GFactor.ordinary 1 [0]] 1 []], [GFactor.ordinary 2 [5]]⟩
          (fun _ ks => (⟨ks⟩, some (GFactor.ordinary 100 ks))) [] =
        .ok (rts, rem, st') ∧
      (st'.calls.map ElimCall.factors).flatten.count (GFactor.ordinary 1 [0]) +
          rem.count (GFactor.ordinary 1 [0]) =
        (allClusterFactorsList
            [Cluster.mk [0] [GFactor.ordinary 1 [0]] 1 []]).count
            (GFactor.ordinary 1 [0]) +
          [GFactor.ordinary 2 [5]].count (GFactor.ordinary 1 [0]) := by
  have hf : ∀ gs ks rf, (((fun gs ks => ((⟨ks⟩ : Conditional),
      some (GFactor.ordinary 100 ks))) : EliminateF) gs ks).2 = some rf →
      rf ≠ GFactor.ordinary 1 [0] := by
    intro gs ks rf h
    injection h with h
    subst h
    intro hc
    injection hc with h1 h2
    cases h1
  exact ⟨hf,
    c2_factor_conservation (fun _ ks => (⟨ks⟩, some (GFactor.ordinary 100 ks)))
      (fun _ _ => rfl)
      ⟨[Cluster.mk [0] [GFactor.ordinary 1 [0]] 1 []], [GFactor.ordinary 2 [5]]⟩
      [] (GFactor.ordinary 1 [0]) hf⟩

theorem c3_witness :
    ∃ (rts : List Nat) (rem : List GFactor) (st' : ElimState),
      ClusterTree.eliminate
          ⟨[Cluster.mk [0] [GFactor.ordinary 1 [0]] 1 []], [GFactor.ordinary 2 [5]]⟩
          (fun _ ks => (⟨ks⟩, some (GFactor.ordinary 100 ks))) [] =
        .ok (rts, rem, st') ∧
      st'.calls.map ElimCall.args =
        refCallsList (fun _ ks => (⟨ks⟩, some (GFactor.ordinary 100 ks)))
          [Cluster.mk [0] [GFactor.ordinary 1 [0]] 1 []] ∧
      (∀ e ∈ st'.calls, (getNode st'.heap e.cliqueIdx).conditional =
        some (((fun _ ks => ((⟨ks⟩ : Conditional),
          some (GFactor.ordinary 100 ks))) : EliminateF) e.factors e.order).1) ∧
      (∀ c2 : Cluster,
        refCalls (fun _ ks => (⟨ks⟩, some (GFactor.ordinary 100 ks))) c2 =
        refCallsList (fun _ ks => (⟨ks⟩, some (GFactor.ordinary 100 ks)))
            c2.children ++
          [(c2.factors ++
              (contribList (fun _ ks => (⟨ks⟩, some (GFactor.ordinary 100 ks)))
                c2.children).filterMap id, c2.keys)]) :=
  c3_post_order_step (fun _ ks => (⟨ks⟩, some (GFactor.ordinary 100 ks)))
    (fun _ _ => rfl)
    ⟨[Cluster.mk [0] [GFactor.ordinary 1 [0]] 1 []], [GFactor.ordinary 2 [5]]⟩ []

theorem c4_witness :
    ((GFactor.ordinary 100 [0]).empty = false →
      ∃ st1, eliminationPostOrderVisitorHelper
          (fun _ ks => (⟨ks⟩, some (GFactor.ordinary 100 ks)))
          (Cluster.mk [0] [GFactor.ordinary 1 [0]] 1 []) 0 0 [] [none]
          ⟨[newBTNode], [], []⟩ =
        .ok ([none].set 0 (some (GFactor.ordinary 100 [0])), st1)) ∧
    ((GFactor.ordinary 100 [0]).empty = true →
      ∃ st1, eliminationPostOrderVisitorHelper
          (fun _ ks => (⟨ks⟩, some (GFactor.ordinary 100 ks)))
          (Cluster.mk [0] [GFactor.ordinary 1 [0]] 1 []) 0 0 [] [none]
          ⟨[newBTNode], [], []⟩ =
        .ok ([none], st1)) ∧
    (∀ (_ : ∀ gs ks, ((((fun _ ks => ((⟨ks⟩ : Conditional),
          some (GFactor.ordinary 100 ks))) : EliminateF) gs ks).2).isSome = true)
        (t : ClusterTree) (heap0 : Heap) (i : Nat) (hi : i < t.roots.length)
        (rfi : GFactor),
      clusterContrib (fun _ ks => (⟨ks⟩, some (GFactor.ordinary 100 ks)))
          (t.roots.get ⟨i, hi⟩) = some rfi →
      ∃ (rts : List Nat) (rem : List GFactor) (st' : ElimState),
        t.eliminate (fun _ ks => (⟨ks⟩, some (GFactor.ordinary 100 ks))) heap0 =
          .ok (rts, rem, st') ∧ rfi ∈ rem) :=
  c4_remaining_factor_slot (fun _ ks => (⟨ks⟩, some (GFactor.ordinary 100 ks)))
    (Cluster.mk [0] [GFactor.ordinary 1 [0]] 1 []) 0 0 [] [none]
    ⟨[newBTNode], [], []⟩ (GFactor.ordinary 100 [0]) rfl

theorem c5_witness :
    (∀ (node : Cluster) (myData : EDataIP) (pcf : List (Option GFactor))
        (st : ElimState),
      node.factors.any GFactor.isOrphan = true →
      eliminationPostOrderVisitorInPlace
          (fun _ ks => (⟨ks⟩, some (GFactor.ordinary 100 ks))) node myData pcf st =
        .error (.orphanInPlace, st)) ∧
    ∃ stE : ElimState,
      ClusterTree.eliminateInPlace
          ⟨[Cluster.mk [0] [GFactor.orphan 0] 1 []], []⟩
          (fun _ ks => (⟨ks⟩, some (GFactor.ordinary 100 ks)))
          [newBTNode] [0] =
        .error (.orphanInPlace, stE) ∧
      (∀ j, j ∉ stE.calls.map ElimCall.cliqueIdx → j < [newBTNode].length →
        (getNode stE.heap j).conditional = (getNode [newBTNode] j).conditional) :=
  c5_inplace_orphan (fun _ ks => (⟨ks⟩, some (GFactor.ordinary 100 ks)))
    (fun _ _ => rfl) ⟨[Cluster.mk [0] [GFactor.orphan 0] 1 []], []⟩
    [newBTNode] [0]
    (by simp [hasOrphanClusterList, hasOrphanCluster, Cluster.factors,
      GFactor.isOrphan])

theorem c6_witness :
    ((mkEliminationData ⟨true, 0, [], 0⟩ [newBTNode]).2.1.childFactors =
      ([] : List (Option GFactor)) ++ [none]) ∧
    (mkEliminationData ⟨true, 0, [], 0⟩ [newBTNode]).1.myIndexInParent =
      ([] : List (Option GFactor)).length ∧
    (mkEliminationData ⟨true, 0, [], 0⟩ [newBTNode]).1.bayesTreeNode =
      [newBTNode].length ∧
    (true = true →
      (getNode (mkEliminationData ⟨true, 0, [], 0⟩ [newBTNode]).2.2
          [newBTNode].length).parent_ = some 0 ∧
      (getNode (mkEliminationData ⟨true, 0, [], 0⟩ [newBTNode]).2.2 0).children =
        (getNode [newBTNode] 0).children ++ [[newBTNode].length]) :=
  c6_allocating_context ⟨true, 0, [], 0⟩ [newBTNode] (by decide)

theorem c7_witness :
    ∃ (pcf' : List (Option GFactor)) (st' : ElimState),
      eliminationPostOrderVisitor
          (fun _ ks => (⟨ks⟩, some (GFactor.ordinary 100 ks)))
          (Cluster.mk [0] [GFactor.orphan 0] 1 []) ⟨true, 0, [], 1⟩ [none]
          ⟨[newBTNode, newBTNode], [], []⟩ =
        .ok (pcf', st') ∧
      (getNode st'.heap 1).children =
        (getNode ([newBTNode, newBTNode] : Heap) 1).children ++
          orphanIndices [GFactor.orphan 0] ∧
      (∀ o ∈ orphanIndices [GFactor.orphan 0],
        o < ([newBTNode, newBTNode] : Heap).length →
        (getNode st'.heap o).parent_ = some 1) :=
  c7_orphan_reattach (fun _ ks => (⟨ks⟩, some (GFactor.ordinary 100 ks)))
    (Cluster.mk [0] [GFactor.orphan 0] 1 []) ⟨true, 0, [], 1⟩ [none]
    ⟨[newBTNode, newBTNode], [], []⟩ (GFactor.ordinary 100 [0]) rfl (by decide)

theorem c8_witness :
    ((([] : List Nat) ++ []) ++ [0]) ∈
      postEvents (fun _ => [])
        (Cluster.mk [0] [] 1 [Cluster.mk [1] [] 1 []]) [] ∧
    (([] : List Nat) ++ []) ∈
      postEvents (fun _ => [])
        (Cluster.mk [0] [] 1 [Cluster.mk [1] [] 1 []]) [] ∧
    eventIndex
        (postEvents (fun _ => [])
          (Cluster.mk [0] [] 1 [Cluster.mk [1] [] 1 []]) [])
        ((([] : List Nat) ++ []) ++ [0]) <
      eventIndex
        (postEvents (fun _ => [])
          (Cluster.mk [0] [] 1 [Cluster.mk [1] [] 1 []]) [])
        (([] : List Nat) ++ []) :=
  c8_parent_post_after_children (fun _ => [])
    (Cluster.mk [0] [] 1 [Cluster.mk [1] [] 1 []]) [] []
    (Cluster.mk [0] [] 1 [Cluster.mk [1] [] 1 []]) 0 rfl (by decide)

theorem c9_witness :
    (∀ (elim2 : EliminateF) (node : Cluster) (myIdx myIip : Nat)
        (cf pcf : List (Option GFactor)) (st : ElimState),
      (elim2 (gatherFactors node.factors cf) node.keys).2 = none →
      ∃ stE, eliminationPostOrderVisitorHelper elim2 node myIdx myIip cf pcf st =
        .error (.nullRemainingFactor, stE)) ∧
    (∃ out, ClusterTree.eliminate
        ⟨[Cluster.mk [0] [GFactor.ordinary 1 [0]] 1 []], [GFactor.ordinary 2 [5]]⟩
        (fun _ ks => (⟨ks⟩, some (GFactor.ordinary 100 ks))) [newBTNode] = .ok out) ∧
    (∀ e stE, ClusterTree.eliminateInPlace
        ⟨[Cluster.mk [0] [GFactor.ordinary 1 [0]] 1 []], [GFactor.ordinary 2 [5]]⟩
        (fun _ ks => (⟨ks⟩, some (GFactor.ordinary 100 ks))) [newBTNode] [0] =
        .error (e, stE) → e = .orphanInPlace) :=
  c9_null_remaining_precondition
    (fun _ ks => (⟨ks⟩, some (GFactor.ordinary 100 ks))) (fun _ _ => rfl)
    ⟨[Cluster.mk [0] [GFactor.ordinary 1 [0]] 1 []], [GFactor.ordinary 2 [5]]⟩
    [newBTNode] [0]

theorem c10_witness :
    ∃ (pcf' : List (Option GFactor)) (st' : ElimState),
      eliminationPostOrderVisitor
          (fun _ ks => (⟨ks⟩, some (GFactor.ordinary 100 ks)))
          (Cluster.mk [0] [GFactor.orphan 0] 1 []) ⟨true, 0, [], 1⟩ [none]
          ⟨[newBTNode, newBTNode], [], []⟩ =
        .ok (pcf', st') ∧
      st'.calls = ([] : List ElimCall) ++
        [⟨1, gatherFactors [GFactor.orphan 0] [], [0]⟩] ∧
      (∀ o, GFactor.orphan o ∈ [GFactor.orphan 0] →
        GFactor.orphan o ∈ gatherFactors [GFactor.orphan 0] [] ∧
        o ∈ (getNode st'.heap 1).children) :=
  c10_orphans_in_gathered (fun _ ks => (⟨ks⟩, some (GFactor.ordinary 100 ks)))
    (Cluster.mk [0] [GFactor.orphan 0] 1 []) ⟨true, 0, [], 1⟩ [none]
    ⟨[newBTNode, newBTNode], [], []⟩ (GFactor.ordinary 100 [0]) rfl (by decide)
